import Mathlib

/-!
Verification development for the Unifytics JSONL→Parquet converter.

The development shallowly embeds the two source modules:

* `src/jsonl_converter/converter.py` — the chunked streaming conversion
  pipeline `convert_jsonl_to_parquet` (record batching, nested-structure
  flattening, incremental columnar writing, metrics accounting);
* `src/scripts/jsonl_converter/schema_handler.py` — the fixed-schema path
  `convert_with_custom_schema` / `create_custom_schema`.

Conventions of the embedding:

* a JSONL input is modelled as the list of its already-parsed records
  (`Option` at the call boundary: `none` models an unreadable input file);
* pandas data frames are modelled column-major (`DF`), with the pandas
  row-label bookkeeping that matters here: `pd.read_json(lines=True,
  chunksize=B)` gives chunk `i` the running labels `i*B, i*B+1, …`
  (`obj.index = range(nrows_seen, …)` in pandas' `JsonReader.__next__`),
  while `pd.json_normalize` always returns labels `0, …, n-1`, and
  `DataFrame.join` matches on labels;
* the behaviour of the external pandas primitives the converter calls
  (`json_normalize`, `select_dtypes`, `DataFrame.join`, truthiness in
  `str(x) if x else None`) is modelled after their documented semantics,
  since the flattening algorithm of the converter is defined by them;
* the columnar store is the opaque external collaborator of the spec: its
  write contract (create on first write, append a row group per subsequent
  write with the fixed codec, reject an unrecognized codec) is modelled by
  `WState.file`;
* wall-clock durations are abstracted to unit ticks and byte sizes to
  record counts: the claims checked here depend only on which metric
  fields are populated and on how many entries accumulate, never on
  actual seconds or bytes;
* python exceptions are modelled by `Except CErr`; the converter's
  top-level `except Exception` collapses every error kind into the
  boolean failure result, exactly as in the source.
-/

/-- One parsed JSON value, as read from one line of the input file
(scalars, nested objects and lists; numbers restricted to integers,
which is all the claims exercise). -/
inductive JVal where
  | jnull
  | jbool (b : Bool)
  | jint (n : Int)
  | jstr (s : String)
  | jarr (xs : List JVal)
  | jobj (kvs : List (String × JVal))

/-- One record of the JSONL input: the ordered key/value pairs of the
JSON object on one line. -/
abbrev Record := List (String × JVal)

/-- One pandas cell value after `pd.read_json`: python `None`, the float
`NaN` pandas uses for missing entries, scalars, and object cells holding
a list or a dict. -/
inductive PVal where
  | pnone
  | pnan
  | pint (n : Int)
  | pbool (b : Bool)
  | pstr (s : String)
  | plist (xs : List JVal)
  | pdict (kvs : List (String × JVal))

/-- First-match association lookup (python `dict`/pandas column access;
records produced by JSON parsing have unique keys). -/
def rlookup {α : Type} : List (String × α) → String → Option α
  | [], _ => none
  | kv :: r, k => if kv.1 = k then some kv.2 else rlookup r k

/-- Insert the keys `ks` in order into `acc`, skipping keys already
present: the column-union order pandas uses when it builds a frame from
a list of records (first-appearance order). -/
def insKeys (acc : List String) (ks : List String) : List String :=
  ks.foldl (fun a k => if k ∈ a then a else a ++ [k]) acc

/-- Column set of a batch: union of the record keys in first-appearance
order, as pandas infers it from a list of records. -/
def keysUnion (rows : List Record) : List String :=
  rows.foldl (fun acc r => insKeys acc (r.map Prod.fst)) []

/-- Whether an (optional) JSON value keeps a column numeric for pandas:
a column whose present values are all integers (with nulls and missing
entries) is inferred as a numeric dtype, in which case nulls and missing
entries are represented as `NaN`, not `None`. -/
def numLikeJ : Option JVal → Bool
  | none => true
  | some .jnull => true
  | some (.jint _) => true
  | some _ => false

/-- Whether the column named `k` is inferred numeric over `rows`. -/
def colNumericish (rows : List Record) (k : String) : Bool :=
  rows.all (fun r => numLikeJ (rlookup r k))

/-- The pandas cell for an optional JSON value in a column whose
numeric-ness is `num`: missing entries become `NaN`; JSON `null` becomes
`NaN` in a numeric column and `None` in an object column. -/
def cellOf (num : Bool) : Option JVal → PVal
  | none => .pnan
  | some .jnull => if num then .pnan else .pnone
  | some (.jbool b) => .pbool b
  | some (.jint n) => .pint n
  | some (.jstr s) => .pstr s
  | some (.jarr xs) => .plist xs
  | some (.jobj kvs) => .pdict kvs

/-- A pandas data frame, column-major: `start` is the first row label
(labels are the consecutive range `start, start+1, …`, the labels
`pd.read_json(..., chunksize=…)` assigns), `nrows` the row count, and
`cols` the named columns in frame order. -/
structure DF where
  start : Nat
  nrows : Nat
  cols : List (String × List PVal)

/-- The values of column `k` of a batch built from `rows`. -/
def colVals (rows : List Record) (k : String) : List PVal :=
  rows.map (fun r => cellOf (colNumericish rows k) (rlookup r k))

/-- The batch `pd.read_json(lines=True, chunksize=…)` yields for the
records `rows` with running first label `start`: columns are the union
of keys in first-appearance order, missing keys become `NaN`. -/
def fromRecords (start : Nat) (rows : List Record) : DF :=
  ⟨start, rows.length, (keysUnion rows).map (fun k => (k, colVals rows k))⟩

/-- Whether a pandas cell is numeric-like (`int64`/`float64` material). -/
def pNumLike : PVal → Bool
  | .pint _ => true
  | .pnan => true
  | _ => false

/-- Whether a pandas cell is a plain boolean. -/
def pIsBool : PVal → Bool
  | .pbool _ => true
  | _ => false

/-- Whether a column of cells has pandas dtype `object`: anything that is
neither an all-numeric column (integers and `NaN`) nor an all-boolean
column.  This is what `chunk.select_dtypes(include=['object'])` selects. -/
def isObjectDtype (vs : List PVal) : Bool :=
  !(vs.all pNumLike || vs.all pIsBool)

/-- The object-dtype column names of a frame, in frame order: the columns
the flattening loop of `convert_jsonl_to_parquet` iterates over (the list
is computed once, from the frame entering the loop, exactly like the
`for column in chunk.select_dtypes(include=['object'])` snapshot). -/
def objColsOf (df : DF) : List String :=
  (df.cols.filter (fun c => isObjectDtype c.2)).map Prod.fst

/-- The value in the first row of column `c` (`chunk[column].iloc[0]`). -/
def firstCell (df : DF) (c : String) : Option PVal :=
  (rlookup df.cols c).bind List.head?

/-- Drop the column named `c` (`chunk.drop(columns=[column])`). -/
def dropCol (df : DF) (c : String) : DF :=
  { df with cols := df.cols.filter (fun p => p.1 != c) }

/-- Python truthiness of a pandas cell, as tested by
`str(x) if x else None`: `None`, `0`, `False`, empty strings and empty
containers are falsy; crucially, the float `NaN` that pandas uses for a
missing entry is truthy. -/
def truthy : PVal → Bool
  | .pnone => false
  | .pnan => true
  | .pint n => n != 0
  | .pbool b => b
  | .pstr s => s != ""
  | .plist xs => !xs.isEmpty
  | .pdict kvs => !kvs.isEmpty

mutual
/-- Python `repr` of a JSON-derived value, used for the elements when a
container is rendered by `str`. -/
def jrepr : JVal → String
  | .jnull => "None"
  | .jbool b => if b then "True" else "False"
  | .jint n => toString n
  | .jstr s => "'" ++ s ++ "'"
  | .jarr xs => "[" ++ jreprL xs ++ "]"
  | .jobj kvs => "\x7b" ++ jreprO kvs ++ "\x7d"
/-- Comma-separated `repr` list, python style. -/
def jreprL : List JVal → String
  | [] => ""
  | [x] => jrepr x
  | x :: r => jrepr x ++ ", " ++ jreprL r
/-- Comma-separated `repr` of dict items, python style. -/
def jreprO : List (String × JVal) → String
  | [] => ""
  | [kv] => "'" ++ kv.1 ++ "': " ++ jrepr kv.2
  | kv :: r => "'" ++ kv.1 ++ "': " ++ jrepr kv.2 ++ ", " ++ jreprO r
end

/-- Python `str` of a pandas cell (top level: strings unquoted,
`str(float('nan')) = "nan"`). -/
def pyStr : PVal → String
  | .pnone => "None"
  | .pnan => "nan"
  | .pint n => toString n
  | .pbool b => if b then "True" else "False"
  | .pstr s => s
  | .plist xs => "[" ++ jreprL xs ++ "]"
  | .pdict kvs => "\x7b" ++ jreprO kvs ++ "\x7d"

/-- The list-column cell transform `lambda x: str(x) if x else None`. -/
def listifyCell (v : PVal) : PVal :=
  if truthy v then .pstr (pyStr v) else .pnone

mutual
/-- What `pd.json_normalize` does to one record: flatten nested objects
recursively (default `max_level=None` normalizes all levels), joining the
key path with `"."`; non-object values, lists included, are leaves. -/
def flattenRecord (p : String) : List (String × JVal) → List (String × JVal)
  | [] => []
  | kv :: rest => flattenKV p kv.1 kv.2 ++ flattenRecord p rest
/-- Flattening of one key/value pair under the accumulated path `p`. -/
def flattenKV (p k : String) : JVal → List (String × JVal)
  | .jobj kvs => flattenRecord (p ++ k ++ ".") kvs
  | v => [(p ++ k, v)]
end

/-- Error kinds a conversion stage can raise.  They exist only inside one
call: both converters catch everything at the top level and collapse the
kind into a boolean failure. -/
inductive CErr where
  | ioErr
  | flattenErr
  | writeErr
  | zeroDivErr
  | collisionErr
  | schemaErr
deriving DecidableEq, Repr

/-- Read a cell as a dict, if it is one. -/
def asDict : PVal → Option (List (String × JVal))
  | .pdict kvs => some kvs
  | _ => none

/-- `chunk[column].tolist()` fed to `json_normalize` succeeds only when
every cell is a dict (a scalar or `NaN` row makes `json_normalize`
raise, which the top-level handler turns into a failed conversion). -/
def allDicts : List PVal → Option (List Record)
  | [] => some []
  | .pdict kvs :: vs => (allDicts vs).map (fun ds => kvs :: ds)
  | _ :: _ => none

/-- The columns `pd.json_normalize(column.tolist())` produces, already
renamed with the `
    nested_df.columns = f"{column}." + nested_df.columns
` prefix: flattened key paths in first-appearance order, missing keys
`NaN`.  The normalized frame always carries row labels `0, …, n-1`. -/
def normCols (c : String) (ds : List Record) : List (String × List PVal) :=
  (keysUnion (ds.map (flattenRecord ""))).map
    (fun k => (c ++ "." ++ k,
      (ds.map (flattenRecord "")).map
        (fun fr => cellOf (colNumericish (ds.map (flattenRecord "")) k) (rlookup fr k))))

/-- Label-aligned join of a normalized column (labels `0, …, vs.length-1`)
against a frame with labels `start, …, start+n-1`
(`DataFrame.join` matches on row labels): the row with label `start+i`
receives `vs[start+i]` when that label exists on the right, `NaN`
otherwise. -/
def alignCol (start n : Nat) (vs : List PVal) : List PVal :=
  (List.range n).map (fun i => vs.getD (start + i) .pnan)

/-- One iteration of the flattening loop of `convert_jsonl_to_parquet`
for the column named `c`, on the current frame:

* first-row value a dict → `json_normalize` the column, prefix the new
  names, drop the original column and join the normalized frame
  (label-aligned; overlapping column names make `join` raise);
* first-row value a list → replace every cell by `str(x) if x else None`;
* anything else → leave the frame unchanged. -/
def flattenStep (df : DF) (c : String) : Except CErr DF :=
  match firstCell df c with
  | some (.pdict _) =>
    match allDicts ((rlookup df.cols c).getD []) with
    | none => .error .flattenErr
    | some ds =>
      let nd := normCols c ds
      let base := dropCol df c
      if nd.any (fun p => decide (p.1 ∈ base.cols.map Prod.fst)) then
        .error .collisionErr
      else
        .ok { base with
              cols := base.cols ++ nd.map (fun p => (p.1, alignCol df.start df.nrows p.2)) }
  | some (.plist _) =>
    .ok { df with
          cols := df.cols.map
            (fun p => if p.1 == c then (p.1, p.2.map listifyCell) else p) }
  | _ => .ok df

/-- The whole nested-structure handling pass on one batch: fold
`flattenStep` over the object-dtype columns of the incoming batch. -/
def flattenChunk (df : DF) : Except CErr DF :=
  (objColsOf df).foldlM flattenStep df

/-- Metrics of one conversion (`ConversionMetrics` dataclass).  Durations
are abstracted to unit ticks and sizes to record counts; `chunk_times`
is an `Option` because the dataclass declares `chunk_times: list = None`. -/
structure ConversionMetrics where
  total_duration : Nat
  chunk_times : Option (List Nat)
  compression_time : Nat
  input_size : Nat
  output_size : Nat
deriving Repr

/-- The declared dataclass default of the `chunk_times` field: `None`. -/
def chunkTimesDefault : Option (List Nat) := none

/-- The dataclass `__post_init__`: rebind `chunk_times` to a fresh empty
list, overriding the `None` default. -/
def postInit (m : ConversionMetrics) : ConversionMetrics :=
  { m with chunk_times := some [] }

/-- `ConversionMetrics()` as constructed at the top of
`convert_jsonl_to_parquet`: zero-initialised fields, then `__post_init__`. -/
def metricsInit : ConversionMetrics :=
  postInit ⟨0, chunkTimesDefault, 0, 0, 0⟩

/-- Observable I/O events of one streaming conversion, in order: reading
the input size, pulling one chunk from the reader, creating the output
file, appending a row group to it. -/
inductive Ev where
  | readSize
  | readChunk (i : Nat)
  | createFile
  | appendFile
deriving DecidableEq, Repr

/-- State threaded through the chunk loop: the output file so far (one
`(codec, row group)` entry per completed `pq.write_table` call, `none`
before the first chunk creates the file), the metrics accumulated so
far, and the I/O events so far. -/
structure WState where
  file : Option (List (String × DF))
  metrics : ConversionMetrics
  events : List Ev

/-- Codecs the columnar store accepts (spec §6): `snappy`, `gzip`,
`brotli`, `none`; anything else makes the write raise. -/
def validCodec (c : String) : Bool :=
  c = "snappy" || c = "gzip" || c = "brotli" || c = "none"

/-- Per-chunk metric update: one unit tick appended to `chunk_times` and
added to `compression_time`, exactly after the write succeeds (the
source appends `chunk_duration` only after `pq.write_table` returns). -/
def bumpMetrics (m : ConversionMetrics) : ConversionMetrics :=
  { m with
    compression_time := m.compression_time + 1
    chunk_times := some ((m.chunk_times.getD []) ++ [1]) }

/-- One iteration of the chunk loop: pull chunk `i` (first row label
`start`), flatten it, and write it — `pq.write_table(table, output_path,
compression=compression)` creating the file on the first chunk and
`pq.write_table(..., append=True)` appending a row group afterwards,
always with the one codec of the call.  Any stage error aborts the loop,
carrying the state accumulated so far to the top-level handler. -/
def stepChunk (codec : String) (i start : Nat) (recs : List Record)
    (st : WState) : Except WState WState :=
  let st0 : WState := { st with events := st.events ++ [.readChunk i] }
  match flattenChunk (fromRecords start recs) with
  | .error _ => .error st0
  | .ok df =>
    if validCodec codec then
      .ok { file := some ((st0.file.getD []) ++ [(codec, df)])
            metrics := bumpMetrics st0.metrics
            events := st0.events ++
              [if st0.file.isNone then Ev.createFile else Ev.appendFile] }
    else .error st0

/-- The chunk loop of `convert_jsonl_to_parquet`: process the chunks in
order; `false` means some chunk raised and the loop was abandoned with
the state accumulated so far. -/
def convLoop (codec : String) :
    List (List Record) → Nat → Nat → WState → WState × Bool
  | [], _, _, st => (st, true)
  | c :: cs, i, start, st =>
    match stepChunk codec i start c st with
    | .ok st' => convLoop codec cs (i + 1) (start + c.length) st'
    | .error st' => (st', false)

/-- Chunking with explicit structural fuel (so that the definition
computes by reduction); the wrapper `chunksOf` supplies fuel equal to
the row count, which suffices for every positive chunk size. -/
def chunksOfF : Nat → Nat → List Record → List (List Record)
  | 0, _, _ => []
  | _ + 1, _, [] => []
  | fuel + 1, b, r :: rest => (r :: rest.take (b - 1)) :: chunksOfF fuel b (rest.drop (b - 1))

/-- How the lazy reader batches the input: consecutive groups of `b`
records, the last group possibly smaller; the empty input yields no
chunks at all. -/
def chunksOf (b : Nat) (rows : List Record) : List (List Record) :=
  chunksOfF rows.length b rows

/-- Abstract output file size: total row-group row count. -/
def fileSize (ws : List (String × DF)) : Nat :=
  (ws.map (fun p => p.2.nrows)).sum

/-- Result of one `convert_jsonl_to_parquet` call: the returned
`(success, metrics)` pair, plus the observable I/O trace and the final
on-disk file (for stating claims about what was written). -/
structure RunRes where
  ok : Bool
  metrics : ConversionMetrics
  events : List Ev
  file : Option (List (String × DF))

/-- The streaming converter `convert_jsonl_to_parquet`, end to end:

* `input = none` models an unreadable input path: `os.path.getsize`
  raises before any metric beyond the constructor is set;
* otherwise the input size is measured, the reader chunks the records,
  and each chunk is flattened and written (`convLoop`);
* after the loop, `os.path.getsize(output_path)` raises when no chunk
  was ever written (the file was never created), and the summary-logging
  line `sum(metrics.chunk_times)/len(metrics.chunk_times)` raises
  `ZeroDivisionError` on an empty `chunk_times`;
* every error, wherever raised, is caught by the one `except Exception`
  and collapsed into `(False, metrics-so-far)`. -/
def convert_jsonl_to_parquet (input : Option (List Record)) (codec : String)
    (b : Nat) : RunRes :=
  match input with
  | none => ⟨false, metricsInit, [], none⟩
  | some rows =>
    let m0 : ConversionMetrics := { metricsInit with input_size := rows.length }
    let st0 : WState := ⟨none, m0, [.readSize]⟩
    let res := convLoop codec (chunksOf b rows) 0 0 st0
    let st := res.1
    if !res.2 then ⟨false, st.metrics, st.events, st.file⟩
    else
      match st.file with
      | none => ⟨false, st.metrics, st.events, none⟩
      | some ws =>
        let m1 : ConversionMetrics :=
          { st.metrics with output_size := fileSize ws, total_duration := 1 }
        match m1.chunk_times with
        | none => ⟨false, m1, st.events, st.file⟩
        | some [] => ⟨false, m1, st.events, st.file⟩
        | some (_ :: _) =>
          if m1.input_size = 0 then ⟨false, m1, st.events, st.file⟩
          else ⟨true, m1, st.events, st.file⟩

/-- Whether processing one chunk would succeed: the flattening pass
succeeds and the writer accepts the codec.  Used to count how many
chunks a conversion completes before its first failure. -/
def stepOkB (codec : String) (start : Nat) (recs : List Record) : Bool :=
  (match flattenChunk (fromRecords start recs) with
   | .ok _ => true
   | .error _ => false) && validCodec codec

/-- Number of chunks fully processed (flattened and written) before the
first failing chunk, given the chunk list and the first row label. -/
def completedChunks (codec : String) : List (List Record) → Nat → Nat
  | [], _ => 0
  | c :: cs, start =>
    if stepOkB codec start c then completedChunks codec cs (start + c.length) + 1
    else 0

/-- The pyarrow data types the fixed-schema path can name. -/
inductive PaType where
  | int64
  | float64
  | stringT
  | timestampNs
  | boolT
deriving DecidableEq, Repr

/-- A value of the `schema_definition` dict: either a type name resolved
via `getattr(pa, dtype)()` or an already-constructed type object (as the
default schema's `pa.timestamp('ns')` is). -/
inductive SchemaVal where
  | byName (s : String)
  | byType (t : PaType)
deriving DecidableEq, Repr

/-- `getattr(pa, dtype)()` for the type names this model knows; any other
name raises `AttributeError`. -/
def paAttr : String → Option PaType
  | "int64" => some .int64
  | "float64" => some .float64
  | "string" => some .stringT
  | "bool_" => some .boolT
  | _ => none

/-- Resolution of one `schema_definition` entry: a string dtype goes
through `getattr(pa, dtype)()`, a type object is used as is. -/
def schemaField (kv : String × SchemaVal) : Except CErr (String × PaType) :=
  match kv.2 with
  | .byName s =>
    match paAttr s with
    | some t => .ok (kv.1, t)
    | none => .error .schemaErr
  | .byType t => .ok (kv.1, t)

/-- `create_custom_schema`: build the `(name, type)` field list from the
definition dict in order, resolving string dtype entries through
`getattr`; an unknown name raises. -/
def create_custom_schema : List (String × SchemaVal) →
    Except CErr (List (String × PaType))
  | [] => .ok []
  | kv :: rest =>
    match schemaField kv with
    | .error e => .error e
    | .ok fld =>
      match create_custom_schema rest with
      | .error e => .error e
      | .ok flds => .ok (fld :: flds)

/-- The default schema definition of `convert_with_custom_schema`. -/
def defaultSchemaDef : List (String × SchemaVal) :=
  [("id", .byName "int64"), ("timestamp", .byType .timestampNs),
   ("value", .byName "float64"), ("category", .byName "string")]

/-- Coercion of one pandas cell to a declared arrow type, modelling the
safe cast `pa.Table.from_pandas(df, schema=schema)` performs per value:
matching scalars pass through, `NaN`/`None` become null in nullable
non-integer columns, and anything else raises. -/
def coerceCell : PaType → PVal → Except CErr PVal
  | .int64, .pint n => .ok (.pint n)
  | .int64, _ => .error .schemaErr
  | .float64, .pint n => .ok (.pint n)
  | .float64, .pnan => .ok .pnan
  | .float64, _ => .error .schemaErr
  | .stringT, .pstr s => .ok (.pstr s)
  | .stringT, .pnan => .ok .pnone
  | .stringT, .pnone => .ok .pnone
  | .stringT, _ => .error .schemaErr
  | .timestampNs, .pint n => .ok (.pint n)
  | .timestampNs, .pnan => .ok .pnone
  | .timestampNs, _ => .error .schemaErr
  | .boolT, .pbool b => .ok (.pbool b)
  | .boolT, _ => .error .schemaErr

/-- Cell-wise coercion of one column to its declared type; the first
uncoercible value raises. -/
def coerceColumn (t : PaType) : List PVal → Except CErr (List PVal)
  | [] => .ok []
  | v :: vs =>
    match coerceCell t v with
    | .error e => .error e
    | .ok w =>
      match coerceColumn t vs with
      | .error e => .error e
      | .ok ws => .ok (w :: ws)

/-- The columns `pa.Table.from_pandas(df, schema=schema)` keeps: exactly
the schema's fields in schema order; a field absent from the frame
raises `KeyError`. -/
def projectCols (df : DF) : List (String × PaType) →
    Except CErr (List (String × List PVal))
  | [] => .ok []
  | nt :: rest =>
    match rlookup df.cols nt.1 with
    | none => .error .schemaErr
    | some vs =>
      match coerceColumn nt.2 vs with
      | .error e => .error e
      | .ok ws =>
        match projectCols df rest with
        | .error e => .error e
        | .ok cols => .ok ((nt.1, ws) :: cols)

/-- `pa.Table.from_pandas(df, schema=schema)`: the table holds exactly
the schema's columns in schema order (data columns absent from the
schema are dropped — projection semantics); a schema field missing from
the frame raises `KeyError`; each kept column is coerced cell-wise. -/
def from_pandas_with_schema (df : DF) (schema : List (String × PaType)) :
    Except CErr DF :=
  match projectCols df schema with
  | .error e => .error e
  | .ok cols => .ok ⟨0, df.nrows, cols⟩

/-- `convert_with_custom_schema`: resolve the (possibly defaulted)
schema, read the whole input in one frame, coerce via `from_pandas`,
write once (`outWritable` models whether the output path accepts the
single `pq.write_table`), and collapse any raised error into `False`. -/
def convert_with_custom_schema (input : Option (List Record))
    (sd : Option (List (String × SchemaVal))) (outWritable : Bool) : Bool :=
  match create_custom_schema (sd.getD defaultSchemaDef) with
  | .error _ => false
  | .ok schema =>
    match input with
    | none => false
    | some rows =>
      match from_pandas_with_schema (fromRecords 0 rows) schema with
      | .error _ => false
      | .ok _ => outWritable

/-! ### General lemmas about the chunk loop -/

theorem stepChunk_ok_of (codec : String) (i start : Nat) (recs : List Record)
    (st : WState) (h : stepOkB codec start recs = true) :
    ∃ df, stepChunk codec i start recs st =
      .ok { file := some ((st.file.getD []) ++ [(codec, df)])
            metrics := bumpMetrics st.metrics
            events := (st.events ++ [.readChunk i]) ++
              [if st.file.isNone then Ev.createFile else Ev.appendFile] } := by
  unfold stepOkB at h
  unfold stepChunk
  cases hf : flattenChunk (fromRecords start recs) with
  | error e => rw [hf] at h; simp at h
  | ok df =>
    rw [hf] at h
    simp only [Bool.and_eq_true] at h
    exact ⟨df, by simp [h.2]⟩

theorem stepChunk_error_of (codec : String) (i start : Nat) (recs : List Record)
    (st : WState) (h : stepOkB codec start recs = false) :
    stepChunk codec i start recs st =
      .error { st with events := st.events ++ [.readChunk i] } := by
  unfold stepOkB at h
  unfold stepChunk
  cases hf : flattenChunk (fromRecords start recs) with
  | error e => simp
  | ok df =>
    rw [hf] at h
    simp only [Bool.true_and] at h
    simp [h]

theorem convLoop_spec (codec : String) : ∀ (chunks : List (List Record))
    (i start : Nat) (st : WState) (l : List Nat),
    st.metrics.chunk_times = some l →
    ((convLoop codec chunks i start st).1.metrics.chunk_times =
        some (l ++ List.replicate (completedChunks codec chunks start) 1))
    ∧ ((convLoop codec chunks i start st).1.metrics.compression_time =
        st.metrics.compression_time + completedChunks codec chunks start)
    ∧ ((convLoop codec chunks i start st).1.metrics.input_size = st.metrics.input_size)
    ∧ ((convLoop codec chunks i start st).1.metrics.output_size = st.metrics.output_size)
    ∧ ((convLoop codec chunks i start st).1.metrics.total_duration = st.metrics.total_duration)
    ∧ ((convLoop codec chunks i start st).2 = true ↔
        completedChunks codec chunks start = chunks.length) := by
  intro chunks
  induction chunks with
  | nil =>
    intro i start st l hl
    simp [convLoop, completedChunks, hl]
  | cons c cs ih =>
    intro i start st l hl
    cases hok : stepOkB codec start c with
    | true =>
      obtain ⟨df, hstep⟩ := stepChunk_ok_of codec i start c st hok
      have hbump : (bumpMetrics st.metrics).chunk_times = some (l ++ [1]) := by
        simp [bumpMetrics, hl]
      have := ih (i + 1) (start + c.length)
        { file := some ((st.file.getD []) ++ [(codec, df)])
          metrics := bumpMetrics st.metrics
          events := (st.events ++ [.readChunk i]) ++
            [if st.file.isNone then Ev.createFile else Ev.appendFile] }
        (l ++ [1]) hbump
      simp only [convLoop, hstep]
      rw [completedChunks]
      simp only [hok, if_true]
      refine ⟨?_, ?_, ?_, ?_, ?_, ?_⟩
      · rw [this.1]
        simp [List.replicate_succ, List.append_assoc]
      · rw [this.2.1]
        simp [bumpMetrics]
        omega
      · rw [this.2.2.1]; simp [bumpMetrics]
      · rw [this.2.2.2.1]; simp [bumpMetrics]
      · rw [this.2.2.2.2.1]; simp [bumpMetrics]
      · rw [this.2.2.2.2.2]
        simp only [List.length_cons]
        omega
    | false =>
      have hstep := stepChunk_error_of codec i start c st hok
      simp only [convLoop, hstep]
      rw [completedChunks]
      simp [hok, hl]

theorem convLoop_invalid (codec : String) (hc : validCodec codec = false) :
    ∀ (chunks : List (List Record)) (i start : Nat) (st : WState),
    st.file = none →
    (convLoop codec chunks i start st).1.file = none
    ∧ ((convLoop codec chunks i start st).2 = true → chunks = []) := by
  intro chunks
  induction chunks with
  | nil => intro i start st hf; simpa [convLoop]
  | cons c cs ih =>
    intro i start st hf
    have hok : stepOkB codec start c = false := by
      unfold stepOkB; rw [hc]; simp
    have hstep := stepChunk_error_of codec i start c st hok
    simp [convLoop, hstep, hf]

theorem completedChunks_le (codec : String) : ∀ (chunks : List (List Record))
    (start : Nat), completedChunks codec chunks start ≤ chunks.length := by
  intro chunks
  induction chunks with
  | nil => intro start; simp [completedChunks]
  | cons c cs ih =>
    intro start
    rw [completedChunks]
    by_cases h : stepOkB codec start c = true
    · simp only [h, if_true, List.length_cons]
      exact Nat.succ_le_succ (ih _)
    · simp only [Bool.not_eq_true] at h
      simp [h]

theorem convert_some_metrics (rows : List Record) (codec : String) (b : Nat) :
    ((convert_jsonl_to_parquet (some rows) codec b).metrics.chunk_times =
      some (List.replicate (completedChunks codec (chunksOf b rows) 0) 1))
    ∧ ((convert_jsonl_to_parquet (some rows) codec b).metrics.compression_time =
      completedChunks codec (chunksOf b rows) 0)
    ∧ ((convert_jsonl_to_parquet (some rows) codec b).ok = true →
      completedChunks codec (chunksOf b rows) 0 = (chunksOf b rows).length) := by
  have h := convLoop_spec codec (chunksOf b rows) 0 0
    ⟨none, { metricsInit with input_size := rows.length }, [.readSize]⟩ []
    (by simp [metricsInit, postInit])
  simp only [convert_jsonl_to_parquet]
  cases hres : convLoop codec (chunksOf b rows) 0 0
      ⟨none, { metricsInit with input_size := rows.length }, [.readSize]⟩ with
  | mk st okb =>
    rw [hres] at h
    simp only at h
    obtain ⟨h1, h2, _, _, _, h6⟩ := h
    simp only [List.nil_append] at h1
    have h2' : st.metrics.compression_time = completedChunks codec (chunksOf b rows) 0 := by
      rw [h2]; simp [metricsInit, postInit]
    cases okb with
    | false =>
      simp only [Bool.not_false, if_true]
      refine ⟨h1, h2', ?_⟩
      intro hfalse
      simp at hfalse
    | true =>
      simp only [Bool.not_true, if_false]
      have hlen := h6.mp rfl
      cases hfile : st.file with
      | none =>
        refine ⟨h1, h2', ?_⟩
        intro hfalse
        simp at hfalse
      | some ws =>
        simp only [h1]
        cases hk : completedChunks codec (chunksOf b rows) 0 with
        | zero =>
          rw [hk] at h1
          simp only [List.replicate_zero]
          exact ⟨by simp [h1, hk], by simp [h2', hk], fun _ => by rw [← hk]; exact hlen⟩
        | succ k =>
          rw [hk] at h1
          simp only [List.replicate_succ]
          by_cases hz : st.metrics.input_size = 0
          · simp only [hz, if_true]
            exact ⟨by simp [h1, hk], by simp [h2', hk], fun _ => by rw [← hk]; exact hlen⟩
          · simp only [hz, if_false]
            exact ⟨by simp [h1, hk], by simp [h2', hk], fun _ => by rw [← hk]; exact hlen⟩

/-- C2 (status: code_bug).  On an empty input file the streaming path
yields zero batches, so no chunk is ever written: `os.path.getsize`
on the never-created output raises, and the summary line
`sum(metrics.chunk_times)/len(metrics.chunk_times)` divides by the
length of the empty batch-duration sequence, which raises
`ZeroDivisionError`; the top-level handler turns either error into a
returned failure.  The spec (§4.4, §8) requires a failure-free
completion with a guarded mean on this input; the code instead returns
the failure flag (with the empty `chunk_times` in the partial metrics),
as this evaluation of the embedded converter shows. -/
theorem claim2_empty_input_returns_failure :
    convert_jsonl_to_parquet (some []) "snappy" 100000 =
      ⟨false, ⟨0, some [], 0, 0, 0⟩, [.readSize], none⟩ := rfl

/-- C4 counterexample.  Calling the converter with the unrecognized
codec `"zstd"` on a one-record input does fail, but only after the input
file's size has been read (`readSize`) and the first chunk has been
pulled from the reader (`readChunk 0`): the I/O trace of the failed call
contains both read events, refuting "fails ... before any I/O occurs —
in particular before the input file is read". -/
theorem claim4_counterexample :
    convert_jsonl_to_parquet (some [[("id", .jint 1)]]) "zstd" 1 =
      ⟨false, ⟨0, some [], 0, 1, 0⟩, [.readSize, .readChunk 0], none⟩
    ∧ Ev.readSize ∈ (convert_jsonl_to_parquet (some [[("id", .jint 1)]]) "zstd" 1).events
    ∧ Ev.readChunk 0 ∈ (convert_jsonl_to_parquet (some [[("id", .jint 1)]]) "zstd" 1).events :=
  ⟨rfl, by decide, by decide⟩

/-- C4 (status: corrected).  Amended claim: a call with a compression
codec outside the accepted set fails — the failure flag is returned and
no row group is ever written to the output file — but the codec is
rejected only when the first batch is written, after the input has been
read; no validation happens before I/O. -/
theorem claim4_amended (input : Option (List Record)) (codec : String) (b : Nat)
    (hc : validCodec codec = false) :
    (convert_jsonl_to_parquet input codec b).ok = false
    ∧ (convert_jsonl_to_parquet input codec b).file = none := by
  cases input with
  | none => exact ⟨rfl, rfl⟩
  | some rows =>
    have h := convLoop_invalid codec hc (chunksOf b rows) 0 0
      ⟨none, { metricsInit with input_size := rows.length }, [.readSize]⟩ rfl
    simp only [convert_jsonl_to_parquet]
    cases hres : convLoop codec (chunksOf b rows) 0 0
        ⟨none, { metricsInit with input_size := rows.length }, [.readSize]⟩ with
    | mk st okb =>
      rw [hres] at h
      simp only at h
      cases okb with
      | false => exact ⟨rfl, h.1⟩
      | true => rw [h.1]; exact ⟨rfl, rfl⟩

/-- Witness for `claim4_amended` at a concrete unrecognized codec. -/
theorem claim4_amended_witness :
    validCodec "zstd" = false
    ∧ (convert_jsonl_to_parquet (some [[("id", .jint 1)]]) "zstd" 1).ok = false
    ∧ (convert_jsonl_to_parquet (some [[("id", .jint 1)]]) "zstd" 1).file = none :=
  ⟨rfl, claim4_amended (some [[("id", .jint 1)]]) "zstd" 1 rfl⟩

/-- C7 (status: confirmed).  The streaming path catches every stage
error at the top level of one call: for every input, codec and chunk
size the call returns a result (the embedding is a total function into
`RunRes`, mirroring the one `except Exception` around the whole body),
whose metrics hold exactly the per-batch entries accumulated for the
chunks fully processed before the call ended — partial metrics, never
null — and whose failure signal is the bare boolean `ok`, carrying no
error kind.  Success is reported only when every chunk completed. -/
theorem claim7_catch_all_partial_metrics (input : Option (List Record))
    (codec : String) (b : Nat) :
    ∃ k, k ≤ (chunksOf b (input.getD [])).length
    ∧ (convert_jsonl_to_parquet input codec b).metrics.chunk_times =
        some (List.replicate k 1)
    ∧ (convert_jsonl_to_parquet input codec b).metrics.compression_time = k
    ∧ ((convert_jsonl_to_parquet input codec b).ok = true →
        input ≠ none ∧ k = (chunksOf b (input.getD [])).length) := by
  cases input with
  | none =>
    refine ⟨0, Nat.zero_le _, ?_, rfl, ?_⟩
    · rfl
    · intro h; cases h
  | some rows =>
    obtain ⟨h1, h2, h3⟩ := convert_some_metrics rows codec b
    exact ⟨completedChunks codec (chunksOf b rows) 0,
      completedChunks_le codec _ _, h1, h2,
      fun hok => ⟨by simp, h3 hok⟩⟩

/-- C9 (status: confirmed).  Every `ConversionMetrics` the converter
returns has `chunk_times` bound to an actual list: the dataclass field
default is `None`, but `__post_init__` rebinds every fresh instance to
an empty list, and the returned metrics — on success and on failure —
hold exactly one duration entry per batch that was fully processed
before the call ended. -/
theorem claim9_chunk_times_invariant :
    chunkTimesDefault = none
    ∧ metricsInit.chunk_times = some []
    ∧ ∀ (input : Option (List Record)) (codec : String) (b : Nat),
      ∃ l, (convert_jsonl_to_parquet input codec b).metrics.chunk_times = some l
      ∧ l.length = (match input with
          | none => 0
          | some rows => completedChunks codec (chunksOf b rows) 0) := by
  refine ⟨rfl, rfl, ?_⟩
  intro input codec b
  cases input with
  | none => exact ⟨[], rfl, rfl⟩
  | some rows =>
    obtain ⟨h1, _, _⟩ := convert_some_metrics rows codec b
    exact ⟨List.replicate (completedChunks codec (chunksOf b rows) 0) 1, h1,
      by simp⟩

/-- C3 counterexample.  A batch whose sole column's first-row value is
the doubly nested object `{"a": {"b": 1}}` (braces spelled out: a dict
holding a dict) flattens in ONE pass to the scalar column `c.a.b` —
`pd.json_normalize` with its default `max_level=None` recurses through
all levels — and not to an object-typed column `c.a` still holding the
inner object, as the claim states. -/
theorem claim3_counterexample :
    flattenChunk (fromRecords 0 [[("c", .jobj [("a", .jobj [("b", .jint 1)])])]]) =
      .ok ⟨0, 1, [("c.a.b", [.pint 1])]⟩ := rfl

/-- C5 counterexample.  Streaming two single-record batches (chunk size
1) whose column `c` holds the objects `{"a": 1}` and `{"a": 5}`: the
second written batch has `c.a = NaN`, not `5`.  The reader labels the
second chunk's row `1`, `json_normalize` labels its output row `0`, and
`DataFrame.join` aligns on labels, so every batch after the first gets
only nulls in its flattened columns — refuting "flattening expands every
row's object into one flattened sub-record per row". -/
theorem claim5_counterexample :
    (convert_jsonl_to_parquet
      (some [[("c", .jobj [("a", .jint 1)])], [("c", .jobj [("a", .jint 5)])]])
      "none" 1).file =
      some [("none", ⟨0, 1, [("c.a", [.pint 1])]⟩),
            ("none", ⟨1, 1, [("c.a", [.pnan])]⟩)] := rfl

/-- C6 counterexample.  A two-record batch whose column `l` is `[1,2,3]`
in the first row and absent in the second: the absent entry is the float
`NaN`, which is truthy in python, so `str(x) if x else None` renders it
as the string `"nan"` instead of the null the claim requires for an
absent value. -/
theorem claim6_counterexample :
    flattenChunk (fromRecords 0 [[("l", .jarr [.jint 1, .jint 2, .jint 3])], []]) =
      .ok ⟨0, 2, [("l", [.pstr "[1, 2, 3]", .pstr "nan"])]⟩
    ∧ PVal.pstr "nan" ≠ PVal.pnone :=
  ⟨rfl, by intro h; cases h⟩

/-! ### Lemmas about the fixed-schema path -/

theorem rlookup_eq_none {α : Type} : ∀ (l : List (String × α)) (k : String),
    rlookup l k = none ↔ k ∉ l.map Prod.fst := by
  intro l
  induction l with
  | nil => intro k; simp [rlookup]
  | cons kv r ih =>
    intro k
    rw [rlookup]
    by_cases h : kv.1 = k
    · simp [h]
    · simp only [h, if_false, List.map_cons, List.mem_cons, ih]
      constructor
      · intro hn
        intro hc
        rcases hc with hc | hc
        · exact h hc.symm
        · exact hn hc
      · intro hn
        intro hc
        exact hn (Or.inr hc)

theorem schemaField_name (kv : String × SchemaVal) (fld : String × PaType)
    (h : schemaField kv = .ok fld) : fld.1 = kv.1 := by
  unfold schemaField at h
  split at h
  · split at h
    · cases h; rfl
    · cases h
  · cases h; rfl

theorem create_custom_schema_names : ∀ (sd : List (String × SchemaVal))
    (schema : List (String × PaType)),
    create_custom_schema sd = .ok schema →
    schema.map Prod.fst = sd.map Prod.fst := by
  intro sd
  induction sd with
  | nil =>
    intro schema h
    cases h
    rfl
  | cons kv rest ih =>
    intro schema h
    rw [create_custom_schema] at h
    cases hf : schemaField kv with
    | error e => rw [hf] at h; cases h
    | ok fld =>
      rw [hf] at h
      cases hrest : create_custom_schema rest with
      | error e => rw [hrest] at h; cases h
      | ok flds =>
        rw [hrest] at h
        cases h
        simp [schemaField_name kv fld hf, ih flds hrest]

theorem projectCols_names (df : DF) : ∀ (schema : List (String × PaType))
    (cols : List (String × List PVal)),
    projectCols df schema = .ok cols →
    cols.map Prod.fst = schema.map Prod.fst := by
  intro schema
  induction schema with
  | nil => intro cols h; cases h; rfl
  | cons nt rest ih =>
    intro cols h
    rw [projectCols] at h
    split at h
    · cases h
    · split at h
      · cases h
      · split at h
        · cases h
        · cases h
          rename_i cs hrest
          simp [ih cs hrest]

theorem projectCols_missing (df : DF) : ∀ (schema : List (String × PaType))
    (m : String), m ∈ schema.map Prod.fst → rlookup df.cols m = none →
    ∃ e, projectCols df schema = .error e := by
  intro schema
  induction schema with
  | nil => intro m hm; simp at hm
  | cons nt rest ih =>
    intro m hm hnone
    rw [List.map_cons, List.mem_cons] at hm
    rw [projectCols]
    rcases hm with hm | hm
    · rw [← hm, hnone]
      exact ⟨.schemaErr, rfl⟩
    · cases hl : rlookup df.cols nt.1 with
      | none => exact ⟨.schemaErr, rfl⟩
      | some vs =>
        simp only
        cases hc : coerceColumn nt.2 vs with
        | error e => exact ⟨e, rfl⟩
        | ok ws =>
          obtain ⟨e, he⟩ := ih m hm hnone
          simp only [he]
          exact ⟨e, rfl⟩

theorem fromRecords_names (start : Nat) (rows : List Record) :
    (fromRecords start rows).cols.map Prod.fst = keysUnion rows := by
  rw [fromRecords]
  simp only [List.map_map]
  exact List.map_id' _

theorem create_custom_schema_badName : ∀ (sd : List (String × SchemaVal))
    (k s : String), (k, SchemaVal.byName s) ∈ sd → paAttr s = none →
    ∃ e, create_custom_schema sd = .error e := by
  intro sd
  induction sd with
  | nil => intro k s hm; simp at hm
  | cons kv rest ih =>
    intro k s hm hpa
    rw [List.mem_cons] at hm
    rw [create_custom_schema]
    rcases hm with hm | hm
    · rw [← hm]
      simp only [schemaField, hpa]
      exact ⟨.schemaErr, rfl⟩
    · cases hf : schemaField kv with
      | error e => exact ⟨e, rfl⟩
      | ok fld =>
        obtain ⟨e, he⟩ := ih k s hm hpa
        simp only [he]
        exact ⟨e, rfl⟩

/-- C8 (status: confirmed).  In the fixed-schema path: whenever the
schema resolves and the coerced table is built, the output holds exactly
the mapping's columns — any data column absent from the mapping is
dropped (projection semantics).  And whenever the mapping names a column
absent from the data, the conversion fails, reported — per the collapse
of all errors into the returned boolean — as `False`, not success. -/
theorem claim8_projection_and_missing_column (rows : List Record)
    (sd : List (String × SchemaVal)) :
    (∀ schema t, create_custom_schema sd = .ok schema →
      from_pandas_with_schema (fromRecords 0 rows) schema = .ok t →
      t.cols.map Prod.fst = sd.map Prod.fst
      ∧ ∀ k, k ∉ sd.map Prod.fst → k ∉ t.cols.map Prod.fst)
    ∧ (∀ m, m ∈ sd.map Prod.fst → m ∉ keysUnion rows →
        convert_with_custom_schema (some rows) (some sd) true = false) := by
  constructor
  · intro schema t hcr hfp
    unfold from_pandas_with_schema at hfp
    split at hfp
    · cases hfp
    · cases hfp
      rename_i cols hp
      have hnames : cols.map Prod.fst = sd.map Prod.fst := by
        rw [projectCols_names _ _ _ hp, create_custom_schema_names _ _ hcr]
      exact ⟨hnames, fun k hk => by rw [hnames]; exact hk⟩
  · intro m hm hnotin
    unfold convert_with_custom_schema
    simp only [Option.getD]
    cases hcr : create_custom_schema sd with
    | error e => rfl
    | ok schema =>
      have hm' : m ∈ schema.map Prod.fst := by
        rw [create_custom_schema_names _ _ hcr]; exact hm
      have hnone : rlookup (fromRecords 0 rows).cols m = none := by
        rw [rlookup_eq_none, fromRecords_names]
        exact hnotin
      obtain ⟨e, he⟩ := projectCols_missing _ _ _ hm' hnone
      simp only [from_pandas_with_schema, he]

/-- Witness for `claim8_projection_and_missing_column`: with the data
`{"id": 5, "extra": "x"}` and the mapping `{id: int64}` the written
table has exactly the column `id` (`extra` is dropped); with the mapping
`{id: int64, missing: int64}` against `{"id": 5}` the conversion returns
`False`. -/
theorem claim8_witness :
    ((fromRecords 0 [[("id", .jint 5), ("extra", .jstr "x")]]).nrows = 1
      ∧ (⟨0, 1, [("id", [.pint 5])]⟩ : DF).cols.map Prod.fst =
          [("id", SchemaVal.byName "int64")].map Prod.fst)
    ∧ convert_with_custom_schema (some [[("id", .jint 5)]])
        (some [("id", .byName "int64"), ("missing", .byName "int64")]) true = false := by
  constructor
  · constructor
    · rfl
    · exact ((claim8_projection_and_missing_column
        [[("id", .jint 5), ("extra", .jstr "x")]]
        [("id", .byName "int64")]).1 [("id", PaType.int64)]
        ⟨0, 1, [("id", [.pint 5])]⟩ rfl rfl).1
  · exact (claim8_projection_and_missing_column [[("id", .jint 5)]]
      [("id", .byName "int64"), ("missing", .byName "int64")]).2
      "missing" (by simp) (by simp [keysUnion, insKeys])

/-- C10 (status: confirmed).  `convert_with_custom_schema` is total over
exceptions at its boundary: the embedding is a total function into
`Bool` mirroring the catch-all `except` around the whole body, and it
returns `True` exactly when schema construction, reading, coercion and
the single write all succeed; in particular any schema entry whose type
name is not a valid arrow type makes `getattr` raise inside the guarded
region, so the call returns `False` instead of propagating. -/
theorem claim10_fixed_schema_totality (input : Option (List Record))
    (sd : Option (List (String × SchemaVal))) (w : Bool) :
    (convert_with_custom_schema input sd w = true ↔
      (∃ schema, create_custom_schema (sd.getD defaultSchemaDef) = .ok schema
        ∧ ∃ rows, input = some rows
        ∧ ∃ t, from_pandas_with_schema (fromRecords 0 rows) schema = .ok t)
      ∧ w = true)
    ∧ (∀ k s, (k, SchemaVal.byName s) ∈ sd.getD defaultSchemaDef →
        paAttr s = none → convert_with_custom_schema input sd w = false) := by
  constructor
  · unfold convert_with_custom_schema
    cases hcr : create_custom_schema (sd.getD defaultSchemaDef) with
    | error e =>
      simp only
      constructor
      · intro h; cases h
      · rintro ⟨⟨schema, hs, _⟩, _⟩
        simp at hs
    | ok schema =>
      cases input with
      | none =>
        simp only
        constructor
        · intro h; cases h
        · rintro ⟨⟨schema', hs, rows, hrows, _⟩, _⟩
          cases hrows
      | some rows =>
        simp only
        cases hfp : from_pandas_with_schema (fromRecords 0 rows) schema with
        | error e =>
          simp only
          constructor
          · intro h; cases h
          · rintro ⟨⟨schema', hs, rows', hrows, t, ht⟩, _⟩
            cases hs
            cases hrows
            rw [hfp] at ht
            cases ht
        | ok t =>
          simp only
          constructor
          · intro h
            exact ⟨⟨schema, rfl, rows, rfl, t, hfp⟩, h⟩
          · rintro ⟨_, hw⟩
            exact hw
  · intro k s hk hpa
    obtain ⟨e, he⟩ := create_custom_schema_badName _ k s hk hpa
    unfold convert_with_custom_schema
    simp only [he]

/-- Witness for `claim10_fixed_schema_totality`: a successful end-to-end
call returns `True`, and a schema definition naming the nonexistent
arrow type `notatype` makes the call return `False`. -/
theorem claim10_witness :
    convert_with_custom_schema (some [[("id", .jint 5)]])
      (some [("id", .byName "int64")]) true = true
    ∧ convert_with_custom_schema (some [[("id", .jint 5)]])
      (some [("id", .byName "notatype")]) true = false := by
  constructor
  · exact (claim10_fixed_schema_totality (some [[("id", .jint 5)]])
      (some [("id", .byName "int64")]) true).1.mpr
      ⟨⟨[("id", PaType.int64)], rfl, [[("id", .jint 5)]], rfl,
        ⟨0, 1, [("id", [.pint 5])]⟩, rfl⟩, rfl⟩
  · exact (claim10_fixed_schema_totality (some [[("id", .jint 5)]])
      (some [("id", .byName "notatype")]) true).2 "id" "notatype"
      (by simp) rfl

/-! ### Lemmas about the flattening pass -/

theorem foldlM_singleton {β : Type} (f : β → String → Except CErr β) (d : β)
    (a : String) : List.foldlM f d [a] = f d a := by
  rw [List.foldlM]
  cases f d a <;> rfl

theorem insKeys_fresh : ∀ (ks : List String) (acc : List String),
    ks.Nodup → (∀ k ∈ ks, k ∉ acc) → insKeys acc ks = acc ++ ks := by
  intro ks
  induction ks with
  | nil => intro acc _ _; simp [insKeys]
  | cons k rest ih =>
    intro acc hnd hdisj
    rw [List.nodup_cons] at hnd
    have hk : k ∉ acc := hdisj k (List.mem_cons_self k rest)
    rw [insKeys, List.foldl_cons, if_neg hk]
    have := ih (acc ++ [k]) hnd.2 (fun x hx => by
      rw [List.mem_append, List.mem_singleton]
      rintro (h | h)
      · exact hdisj x (List.mem_cons_of_mem k hx) h
      · rw [h] at hx; exact hnd.1 hx)
    rw [insKeys] at this
    rw [this, List.append_assoc, List.singleton_append]

theorem insKeys_subset : ∀ (ks : List String) (acc : List String),
    (∀ k ∈ ks, k ∈ acc) → insKeys acc ks = acc := by
  intro ks
  induction ks with
  | nil => intro acc _; simp [insKeys]
  | cons k rest ih =>
    intro acc hsub
    rw [insKeys, List.foldl_cons, if_pos (hsub k (List.mem_cons_self k rest))]
    have := ih acc (fun x hx => hsub x (List.mem_cons_of_mem k hx))
    rw [insKeys] at this
    exact this

theorem keysUnion_homog (ks : List String) (hnd : ks.Nodup) :
    ∀ (rows : List Record), rows ≠ [] →
    (∀ r ∈ rows, r.map Prod.fst = ks) → keysUnion rows = ks := by
  intro rows
  cases rows with
  | nil => intro h; exact absurd rfl h
  | cons r0 rest =>
    intro _ hkeys
    rw [keysUnion, List.foldl_cons]
    have h0 : insKeys [] (r0.map Prod.fst) = ks := by
      rw [hkeys r0 (List.mem_cons_self r0 rest),
        insKeys_fresh ks [] hnd (fun k _ => List.not_mem_nil k),
        List.nil_append]
    rw [h0]
    have : ∀ (l : List Record), (∀ r ∈ l, r.map Prod.fst = ks) →
        List.foldl (fun acc r => insKeys acc (r.map Prod.fst)) ks l = ks := by
      intro l
      induction l with
      | nil => intro _; rfl
      | cons a as ihl =>
        intro hl
        rw [List.foldl_cons, hl a (List.mem_cons_self a as),
          insKeys_subset ks ks (fun k hk => hk)]
        exact ihl (fun r hr => hl r (List.mem_cons_of_mem a hr))
    exact this rest (fun r hr => hkeys r (List.mem_cons_of_mem r0 hr))

theorem rlookup_self_of_nodup {α : Type} : ∀ (l : List (String × α)),
    (l.map Prod.fst).Nodup → ∀ kv ∈ l, rlookup l kv.1 = some kv.2 := by
  intro l
  induction l with
  | nil => intro _ kv hkv; simp at hkv
  | cons p rest ih =>
    intro hnd kv hkv
    rw [List.map_cons, List.nodup_cons] at hnd
    rw [List.mem_cons] at hkv
    rcases hkv with hkv | hkv
    · rw [hkv, rlookup, if_pos rfl]
    · rw [rlookup]
      have hne : p.1 ≠ kv.1 := by
        intro h
        exact hnd.1 (h ▸ List.mem_map_of_mem Prod.fst hkv)
      rw [if_neg hne]
      exact ih hnd.2 kv hkv

theorem alignCol_id (n : Nat) : ∀ (vsp : List PVal), vsp.length = n →
    alignCol 0 n vsp = vsp := by
  intro vsp hlen
  rw [alignCol]
  subst hlen
  simp only [Nat.zero_add]
  apply List.ext_getElem
  · simp
  · intro i h1 h2
    simp only [List.getElem_map, List.getElem_range, List.getD_eq_getElem?_getD]
    rw [List.getElem?_eq_getElem h2]
    rfl

theorem alignCol_out (start n : Nat) (vsp : List PVal)
    (h : vsp.length ≤ start) : alignCol start n vsp = List.replicate n .pnan := by
  rw [alignCol]
  apply List.ext_getElem
  · simp
  · intro i h1 h2
    have : vsp.length ≤ start + i := Nat.le_trans h (Nat.le_add_right _ _)
    simp [List.getD_eq_getElem?_getD, List.getElem?_eq_none this]

theorem allDicts_map_pdict : ∀ (ds : List Record),
    allDicts (ds.map PVal.pdict) = some ds := by
  intro ds
  induction ds with
  | nil => rfl
  | cons d rest ih => rw [List.map_cons, allDicts, ih]; rfl

mutual
theorem flattenRecord_no_obj (p : String) : ∀ (r : List (String × JVal)),
    ∀ kv ∈ flattenRecord p r, ∀ kvs', kv.2 ≠ JVal.jobj kvs'
  | [] => by intro kv hkv; simp [flattenRecord] at hkv
  | a :: rest => by
    intro kv hkv kvs' hobj
    rw [flattenRecord, List.mem_append] at hkv
    rcases hkv with hkv | hkv
    · exact flattenKV_no_obj p a.1 a.2 kv hkv kvs' hobj
    · exact flattenRecord_no_obj p rest kv hkv kvs' hobj
theorem flattenKV_no_obj (p k : String) : ∀ (v : JVal),
    ∀ kv ∈ flattenKV p k v, ∀ kvs', kv.2 ≠ JVal.jobj kvs'
  | .jobj kvs => by
    intro kv hkv kvs' hobj
    rw [flattenKV] at hkv
    exact flattenRecord_no_obj (p ++ k ++ ".") kvs kv hkv kvs' hobj
  | .jnull => by intro kv hkv kvs' hobj; simp [flattenKV] at hkv; subst hkv; simp at hobj
  | .jbool b => by intro kv hkv kvs' hobj; simp [flattenKV] at hkv; subst hkv; simp at hobj
  | .jint n => by intro kv hkv kvs' hobj; simp [flattenKV] at hkv; subst hkv; simp at hobj
  | .jstr s => by intro kv hkv kvs' hobj; simp [flattenKV] at hkv; subst hkv; simp at hobj
  | .jarr xs => by intro kv hkv kvs' hobj; simp [flattenKV] at hkv; subst hkv; simp at hobj
end

/-- C6 (status: corrected).  Amended claim: for a batch column whose
first-row value is a list, flattening replaces every row's value, under
the same column name, by `str(value)` when the value is truthy and by
null when it is falsy: a non-empty list becomes its non-null textual
rendering and an empty list becomes null — but an ABSENT value, which
pandas stores as the float `NaN`, is truthy, so it becomes the string
`"nan"`, not null (an explicit JSON `null`, stored as `None`, does
become null). -/
theorem claim6_amended (xs : List JVal) (rest : List PVal) (name : String)
    (start : Nat) :
    flattenChunk ⟨start, (PVal.plist xs :: rest).length, [(name, PVal.plist xs :: rest)]⟩ =
      .ok ⟨start, (PVal.plist xs :: rest).length,
           [(name, (PVal.plist xs :: rest).map listifyCell)]⟩
    ∧ (xs ≠ [] → listifyCell (PVal.plist xs) = .pstr ("[" ++ jreprL xs ++ "]"))
    ∧ listifyCell (PVal.plist []) = .pnone
    ∧ listifyCell PVal.pnan = .pstr "nan"
    ∧ listifyCell PVal.pnone = .pnone := by
  refine ⟨?_, ?_, rfl, rfl, rfl⟩
  · rw [flattenChunk]
    have hobj : objColsOf ⟨start, (PVal.plist xs :: rest).length,
        [(name, PVal.plist xs :: rest)]⟩ = [name] := by
      simp [objColsOf, isObjectDtype, pNumLike, pIsBool]
    rw [hobj, foldlM_singleton]
    simp [flattenStep, firstCell, rlookup]
  · intro h
    cases xs with
    | nil => exact absurd rfl h
    | cons a as => rfl

/-- Witness for `claim6_amended` at a concrete batch: the list `[1,2,3]`
renders to the non-null string `"[1, 2, 3]"`, the empty list and `None`
flatten to null, and `NaN` flattens to the string `"nan"`. -/
theorem claim6_amended_witness :
    flattenChunk ⟨0, 2, [("l", [PVal.plist [.jint 1, .jint 2, .jint 3], PVal.pnan])]⟩ =
      .ok ⟨0, 2, [("l", [PVal.plist [.jint 1, .jint 2, .jint 3], PVal.pnan].map listifyCell)]⟩
    ∧ listifyCell (PVal.plist [.jint 1, .jint 2, .jint 3]) =
        .pstr ("[" ++ jreprL [.jint 1, .jint 2, .jint 3] ++ "]")
    ∧ listifyCell (PVal.plist []) = .pnone
    ∧ listifyCell PVal.pnan = .pstr "nan"
    ∧ listifyCell PVal.pnone = .pnone :=
  ⟨(claim6_amended [.jint 1, .jint 2, .jint 3] [PVal.pnan] "l" 0).1,
   (claim6_amended [.jint 1, .jint 2, .jint 3] [PVal.pnan] "l" 0).2.1 (by simp),
   rfl, rfl, rfl⟩

theorem flattenStep_dict (df : DF) (c : String) (kvs0 : List (String × JVal))
    (vals : List PVal) (ds : List Record)
    (hfc : firstCell df c = some (.pdict kvs0))
    (hl : rlookup df.cols c = some vals)
    (had : allDicts vals = some ds)
    (hcol : ∀ p ∈ normCols c ds, p.1 ∉ (dropCol df c).cols.map Prod.fst) :
    flattenStep df c = .ok ⟨df.start, df.nrows,
      (dropCol df c).cols ++
        (normCols c ds).map (fun p => (p.1, alignCol df.start df.nrows p.2))⟩ := by
  have hany : ((normCols c ds).any
      (fun p => decide (p.1 ∈ (dropCol df c).cols.map Prod.fst))) = false := by
    rw [List.any_eq_false]
    intro p hp
    simpa using hcol p hp
  rw [flattenStep]
  simp only [hfc, hl, Option.getD_some, had, hany, Bool.false_eq_true, if_false]
  rfl

/-- C3 (status: corrected).  Amended claim: one flattening pass DOES
recurse into doubly-nested objects — `pd.json_normalize` with its
default `max_level=None` expands nested objects through every level,
joining key paths with dots — so a column whose first-row value is a
dict flattens into one column per flattened leaf path (prefixed with
the original column name) holding scalar/list leaf cells, and none of
the resulting cells is an object (dict): nothing is left object-typed
for a later pass. -/
theorem claim3_amended (kvs : List (String × JVal))
    (hnd : ((flattenRecord "" kvs).map Prod.fst).Nodup) :
    flattenChunk (fromRecords 0 [[("c", JVal.jobj kvs)]]) =
      .ok ⟨0, 1, (flattenRecord "" kvs).map
        (fun kv => ("c." ++ kv.1, [cellOf (numLikeJ (some kv.2)) (some kv.2)]))⟩
    ∧ (∀ p ∈ (flattenRecord "" kvs).map
        (fun kv => ("c." ++ kv.1, [cellOf (numLikeJ (some kv.2)) (some kv.2)])),
       ∀ v ∈ p.2, asDict v = none) := by
  have hnorm : normCols "c" [kvs] = (flattenRecord "" kvs).map
      (fun kv => ("c." ++ kv.1, [cellOf (numLikeJ (some kv.2)) (some kv.2)])) := by
    rw [normCols]
    simp only [List.map_cons, List.map_nil]
    rw [keysUnion_homog ((flattenRecord "" kvs).map Prod.fst) hnd
      [flattenRecord "" kvs] (by simp) (by simp)]
    rw [List.map_map]
    apply List.map_congr_left
    intro kv hkv
    have hlk := rlookup_self_of_nodup _ hnd kv hkv
    simp [Function.comp, colNumericish, hlk]
  constructor
  · rw [show fromRecords 0 [[("c", JVal.jobj kvs)]] =
        (⟨0, 1, [("c", [PVal.pdict kvs])]⟩ : DF) from rfl,
      flattenChunk,
      show objColsOf ⟨0, 1, [("c", [PVal.pdict kvs])]⟩ = ["c"] from rfl,
      foldlM_singleton,
      flattenStep_dict ⟨0, 1, [("c", [PVal.pdict kvs])]⟩ "c" kvs
        [PVal.pdict kvs] [kvs] rfl rfl rfl (by intro p hp; simp [dropCol])]
    rw [hnorm, List.map_map]
    exact congrArg (fun z => Except.ok (⟨0, 1, z⟩ : DF))
      (List.map_congr_left (fun kv _ => rfl))
  · intro p hp
    rw [List.mem_map] at hp
    obtain ⟨kv, hkv, hpe⟩ := hp
    intro v hv
    rw [← hpe] at hv
    simp only [List.mem_singleton] at hv
    subst hv
    obtain ⟨k1, v1⟩ := kv
    cases v1 with
    | jobj kvs' => exact absurd rfl (flattenRecord_no_obj "" kvs (k1, JVal.jobj kvs') hkv kvs')
    | jnull => rfl
    | jbool b => rfl
    | jint n => rfl
    | jstr s => rfl
    | jarr xs => rfl

/-- Witness for `claim3_amended`: the record `{"x": {"y": 1}, "d": 2}`
(a dict containing a dict) flattens in one pass to the scalar columns
`c.x.y` and `c.d`. -/
theorem claim3_amended_witness :
    flattenChunk (fromRecords 0
      [[("c", JVal.jobj [("x", .jobj [("y", .jint 1)]), ("d", .jint 2)])]]) =
      .ok ⟨0, 1, [("c.x.y", [.pint 1]), ("c.d", [.pint 2])]⟩ := by
  have h := (claim3_amended [("x", .jobj [("y", .jint 1)]), ("d", .jint 2)]
    (by simp [flattenRecord, flattenKV])).1
  rw [h]
  rfl

/-- C5 (status: corrected).  Amended claim: for a batch column whose
first-row value is a nested object, flattening removes the original
column and appends one column per nested key path, named
`<original>.<nestedKey>` in first-appearance order, with one cell per
row — but the appended cells are aligned BY ROW LABEL, not by position:
the normalized sub-records carry labels `0, …, n-1`, while the batch
carries the reader's running labels, so only the first batch (labels
starting at `0`) receives each row's own flattened sub-record (missing
keys becoming `NaN`, the pandas null); every later batch (first label
`≥ n`) receives only nulls in the appended columns. -/
theorem claim5_amended (vs : List (List (String × JVal))) (hne : vs ≠ [])
    (start : Nat) :
    (flattenChunk (fromRecords start (vs.map (fun kvs => [("c", JVal.jobj kvs)]))) =
      .ok ⟨start, vs.length, (keysUnion (vs.map (flattenRecord ""))).map
        (fun k => ("c." ++ k, alignCol start vs.length
          ((vs.map (flattenRecord "")).map
            (fun fr => cellOf (colNumericish (vs.map (flattenRecord "")) k)
              (rlookup fr k)))))⟩)
    ∧ (start = 0 → ∀ k, alignCol start vs.length
        ((vs.map (flattenRecord "")).map
          (fun fr => cellOf (colNumericish (vs.map (flattenRecord "")) k)
            (rlookup fr k))) =
        (vs.map (flattenRecord "")).map
          (fun fr => cellOf (colNumericish (vs.map (flattenRecord "")) k)
            (rlookup fr k)))
    ∧ (vs.length ≤ start → ∀ k, alignCol start vs.length
        ((vs.map (flattenRecord "")).map
          (fun fr => cellOf (colNumericish (vs.map (flattenRecord "")) k)
            (rlookup fr k))) = List.replicate vs.length .pnan)
    ∧ "c" ∉ (keysUnion (vs.map (flattenRecord ""))).map (fun k => "c." ++ k)
    ∧ (∀ num, cellOf num none = .pnan) := by
  obtain ⟨kvs0, vrest, rfl⟩ : ∃ a l, vs = a :: l := by
    cases vs with
    | nil => exact absurd rfl hne
    | cons a l => exact ⟨a, l, rfl⟩
  refine ⟨?_, ?_, ?_, ?_, fun num => rfl⟩
  · have hcn : colNumericish
        ((kvs0 :: vrest).map (fun kvs => [("c", JVal.jobj kvs)])) "c" = false := by
      simp [colNumericish, rlookup, numLikeJ]
    have hcv : colVals ((kvs0 :: vrest).map (fun kvs => [("c", JVal.jobj kvs)])) "c" =
        (kvs0 :: vrest).map PVal.pdict := by
      unfold colVals
      rw [hcn, List.map_map]
      exact List.map_congr_left (fun kvs _ => rfl)
    have hfr : fromRecords start
        ((kvs0 :: vrest).map (fun kvs => [("c", JVal.jobj kvs)])) =
        ⟨start, (kvs0 :: vrest).length, [("c", (kvs0 :: vrest).map PVal.pdict)]⟩ := by
      rw [fromRecords]
      simp only [List.length_map]
      rw [keysUnion_homog ["c"] (by simp) _ (by simp)
        (by intro r hr; rw [List.mem_map] at hr; obtain ⟨kvs, _, rfl⟩ := hr; rfl)]
      exact congrArg (fun z =>
        (⟨start, (kvs0 :: vrest).length, [("c", z)]⟩ : DF)) hcv
    rw [hfr, flattenChunk]
    rw [show objColsOf ⟨start, (kvs0 :: vrest).length,
        [("c", (kvs0 :: vrest).map PVal.pdict)]⟩ = ["c"] by
      simp [objColsOf, isObjectDtype, pNumLike, pIsBool, List.filter]]
    rw [foldlM_singleton]
    rw [flattenStep_dict ⟨start, (kvs0 :: vrest).length,
        [("c", (kvs0 :: vrest).map PVal.pdict)]⟩ "c" kvs0
        ((kvs0 :: vrest).map PVal.pdict) (kvs0 :: vrest) rfl rfl
        (allDicts_map_pdict (kvs0 :: vrest))
        (by intro p hp; simp [dropCol])]
    rw [normCols, List.map_map]
    rfl
  · intro h k
    subst h
    apply alignCol_id
    simp
  · intro h k
    apply alignCol_out
    simpa using h
  · intro hmem
    rw [List.mem_map] at hmem
    obtain ⟨k, _, hk⟩ := hmem
    have := congrArg String.length hk
    rw [String.length_append] at this
    have h2 : ("c." : String).length = 2 := rfl
    have h1 : ("c" : String).length = 1 := rfl
    omega

/-- Witness for `claim5_amended`: two one-record batches with the same
object column; the alignment facts evaluated at chunk labels `0` and
`1`. -/
theorem claim5_amended_witness :
    flattenChunk (fromRecords 1 ([[("a", JVal.jint 5)]].map
      (fun kvs => [("c", JVal.jobj kvs)]))) =
      .ok ⟨1, 1, [("c.a", [PVal.pnan])]⟩
    ∧ flattenChunk (fromRecords 0 ([[("a", JVal.jint 5)]].map
      (fun kvs => [("c", JVal.jobj kvs)]))) =
      .ok ⟨0, 1, [("c.a", [PVal.pint 5])]⟩ := by
  constructor
  · have h := (claim5_amended [[("a", JVal.jint 5)]] (by simp) 1).1
    rw [h]
    rfl
  · have h := (claim5_amended [[("a", JVal.jint 5)]] (by simp) 0).1
    rw [h]
    rfl

/-! ### Record shapes

For the batch-size-invariance claim the hypothesis "no
heterogeneous-schema batches" is formalised as: every record of the
input has the same shape, where the shape of a record keeps the keys in
order and the kind of every value, recursively through nested objects. -/

/-- The kind of a JSON value, with nested objects carrying the shapes of
their fields. -/
inductive SKind where
  | sNull
  | sBool
  | sInt
  | sStr
  | sList
  | sObj (fields : List (String × SKind))

mutual
/-- Shape of one JSON value. -/
def JVal.shape : JVal → SKind
  | .jnull => .sNull
  | .jbool _ => .sBool
  | .jint _ => .sInt
  | .jstr _ => .sStr
  | .jarr _ => .sList
  | .jobj kvs => .sObj (shapeL kvs)
/-- Shape of a record: keys in order, value kinds recursively. -/
def shapeL : List (String × JVal) → List (String × SKind)
  | [] => []
  | kv :: r => (kv.1, JVal.shape kv.2) :: shapeL r
end

/-- Whether a kind is a nested object. -/
def isObjKind : SKind → Bool
  | .sObj _ => true
  | _ => false

/-- Whether a kind is a list. -/
def isListKind : SKind → Bool
  | .sList => true
  | _ => false

/-- Whether a column of this kind is inferred numeric by pandas. -/
def kindNum : SKind → Bool
  | .sNull => true
  | .sInt => true
  | _ => false

/-- Whether a kind is boolean. -/
def kindBool : SKind → Bool
  | .sBool => true
  | _ => false

/-- Whether a column of this kind has pandas dtype `object`. -/
def kindObjD : SKind → Bool
  | .sStr => true
  | .sList => true
  | .sObj _ => true
  | _ => false

mutual
/-- Shape-level mirror of `flattenRecord`: the flattened field list a
record of the given shape produces under `json_normalize`. -/
def flatShapeF (p : String) : List (String × SKind) → List (String × SKind)
  | [] => []
  | kv :: rest => flatShapeKV p kv.1 kv.2 ++ flatShapeF p rest
/-- Shape-level mirror of `flattenKV`. -/
def flatShapeKV (p k : String) : SKind → List (String × SKind)
  | .sObj fs => flatShapeF (p ++ k ++ ".") fs
  | kd => [(p ++ k, kd)]
end

/-- The flattened key paths of a shape, under the accumulated path `p`. -/
def flatKeys (p : String) (s : List (String × SKind)) : List String :=
  (flatShapeF p s).map Prod.fst

/-- The object-dtype keys of a shape, in order: the columns the
flattening loop will visit on a batch of records of this shape. -/
def objDKeys (s : List (String × SKind)) : List String :=
  (s.filter (fun kv => kindObjD kv.2)).map Prod.fst

/-- All column names the dict-valued keys of a shape expand to. -/
def allExpNames (s : List (String × SKind)) : List String :=
  s.flatMap (fun kv =>
    match kv.2 with
    | .sObj fs => flatKeys (kv.1 ++ ".") fs
    | _ => [])

/-- The column names of a flattened batch of records of shape `s`: the
non-object columns stay in place, and each object column is removed and
its dotted expansion appended, in processing order. -/
def finalNames (s : List (String × SKind)) : List String :=
  (s.filter (fun kv => !isObjKind kv.2)).map Prod.fst ++ allExpNames s

/-- Well-formedness of a shape for the invariance theorem: the original
column names together with all expansion names are distinct (in
particular no flattened name collides with another column, which would
make `DataFrame.join` raise). -/
def ShapeOK (s : List (String × SKind)) : Prop :=
  (s.map Prod.fst ++ allExpNames s).Nodup

/-- The dicts held by column `k` over the rows (defined with a junk
default; used only where every row is known to hold a dict). -/
def dictVals (rows : List Record) (k : String) : List Record :=
  rows.map (fun r =>
    match rlookup r k with
    | some (JVal.jobj kvs) => kvs
    | _ => ([] : Record))

/-- Whether `k` names a dict-valued field of the shape. -/
def isObjKeyIn (s : List (String × SKind)) (k : String) : Bool :=
  match rlookup s k with
  | some (.sObj _) => true
  | _ => false

/-- The expansion columns produced when the dict column `k` is
flattened: `json_normalize` output, prefixed, label-aligned. -/
def dictExpCols (rows : List Record) (start : Nat) (k : String) :
    List (String × List PVal) :=
  (normCols k (dictVals rows k)).map
    (fun p => (p.1, alignCol start rows.length p.2))

/-- The original-column part of the frame after the columns in `done`
have been processed: object columns already processed are gone, list
columns already processed carry their stringified values, everything
else is untouched. -/
def origColsMid (s : List (String × SKind)) (rows : List Record)
    (done : List String) : List (String × List PVal) :=
  (s.filter (fun kv => !(isObjKind kv.2 && decide (kv.1 ∈ done)))).map
    (fun kv => (kv.1,
      if isListKind kv.2 && decide (kv.1 ∈ done)
      then (colVals rows kv.1).map listifyCell
      else colVals rows kv.1))

/-- The expansion part of the frame after the columns in `done` have
been processed: one block of appended columns per processed dict
column, in processing order. -/
def expColsMid (s : List (String × SKind)) (rows : List Record)
    (start : Nat) (done : List String) : List (String × List PVal) :=
  (done.filter (fun k => isObjKeyIn s k)).flatMap (dictExpCols rows start)

/-- The frame midway through the flattening loop over a homogeneous
batch, after the columns in `done` have been processed. -/
def midDF (s : List (String × SKind)) (rows : List Record) (start : Nat)
    (done : List String) : DF :=
  ⟨start, rows.length, origColsMid s rows done ++ expColsMid s rows start done⟩

theorem shapeL_eq_map : ∀ (r : List (String × JVal)),
    shapeL r = r.map (fun kv => (kv.1, kv.2.shape))
  | [] => rfl
  | kv :: r => by rw [shapeL, shapeL_eq_map r, List.map_cons]

theorem keys_shapeL (r : List (String × JVal)) :
    (shapeL r).map Prod.fst = r.map Prod.fst := by
  rw [shapeL_eq_map, List.map_map]
  rfl

theorem shapeL_append : ∀ (a b : List (String × JVal)),
    shapeL (a ++ b) = shapeL a ++ shapeL b := by
  intro a b
  induction a with
  | nil => rfl
  | cons kv r ih => rw [List.cons_append, shapeL, ih, shapeL]; rfl

theorem rlookup_map {α β : Type} (f : α → β) :
    ∀ (l : List (String × α)) (k : String),
    rlookup (l.map (fun kv => (kv.1, f kv.2))) k = (rlookup l k).map f := by
  intro l
  induction l with
  | nil => intro k; rfl
  | cons kv r ih =>
    intro k
    rw [List.map_cons, rlookup, rlookup]
    by_cases h : kv.1 = k
    · simp [h]
    · simp only [h, if_false]
      exact ih k

theorem shape_sNull {v : JVal} (h : v.shape = .sNull) : v = .jnull := by
  cases v <;> first | rfl | cases h

theorem shape_sBool {v : JVal} (h : v.shape = .sBool) : ∃ b, v = .jbool b := by
  cases v <;> first | exact ⟨_, rfl⟩ | cases h

theorem shape_sInt {v : JVal} (h : v.shape = .sInt) : ∃ n, v = .jint n := by
  cases v <;> first | exact ⟨_, rfl⟩ | cases h

theorem shape_sStr {v : JVal} (h : v.shape = .sStr) : ∃ s, v = .jstr s := by
  cases v <;> first | exact ⟨_, rfl⟩ | cases h

theorem shape_sList {v : JVal} (h : v.shape = .sList) : ∃ xs, v = .jarr xs := by
  cases v <;> first | exact ⟨_, rfl⟩ | cases h

theorem shape_sObj {v : JVal} {fs : List (String × SKind)}
    (h : v.shape = .sObj fs) : ∃ kvs, v = .jobj kvs ∧ shapeL kvs = fs := by
  cases v with
  | jobj kvs =>
    refine ⟨kvs, rfl, ?_⟩
    rw [JVal.shape] at h
    cases h
    rfl
  | jnull => cases h
  | jbool b => cases h
  | jint n => cases h
  | jstr s => cases h
  | jarr xs => cases h

theorem numLikeJ_shape (v : JVal) : numLikeJ (some v) = kindNum v.shape := by
  cases v <;> rfl

mutual
theorem shapeL_flattenRecord (p : String) : ∀ (r : List (String × JVal)),
    shapeL (flattenRecord p r) = flatShapeF p (shapeL r)
  | [] => rfl
  | kv :: r => by
    rw [flattenRecord, shapeL_append, shapeL, flatShapeF,
      shapeL_flattenRecord p r, shapeL_flattenKV p kv.1 kv.2]
theorem shapeL_flattenKV (p k : String) : ∀ (v : JVal),
    shapeL (flattenKV p k v) = flatShapeKV p k v.shape
  | .jobj kvs => by
    rw [flattenKV, JVal.shape, flatShapeKV, shapeL_flattenRecord (p ++ k ++ ".") kvs]
  | .jnull => rfl
  | .jbool b => rfl
  | .jint n => rfl
  | .jstr s => rfl
  | .jarr xs => rfl
end

mutual
theorem flatShapeF_shift (p q : String) : ∀ (s : List (String × SKind)),
    flatShapeF (p ++ q) s = (flatShapeF q s).map (fun kv => (p ++ kv.1, kv.2))
  | [] => rfl
  | kv :: rest => by
    rw [flatShapeF, flatShapeF, List.map_append,
      flatShapeF_shift p q rest, flatShapeKV_shift p q kv.1 kv.2]
theorem flatShapeKV_shift (p q k : String) : ∀ (kd : SKind),
    flatShapeKV (p ++ q) k kd = (flatShapeKV q k kd).map (fun kv => (p ++ kv.1, kv.2))
  | .sObj fs => by
    rw [flatShapeKV, flatShapeKV, String.append_assoc, String.append_assoc,
      ← String.append_assoc q k "."]
    exact flatShapeF_shift p (q ++ k ++ ".") fs
  | .sNull => by simp [flatShapeKV, String.append_assoc]
  | .sBool => by simp [flatShapeKV, String.append_assoc]
  | .sInt => by simp [flatShapeKV, String.append_assoc]
  | .sStr => by simp [flatShapeKV, String.append_assoc]
  | .sList => by simp [flatShapeKV, String.append_assoc]
end

theorem flatKeys_shift (c : String) (fs : List (String × SKind)) :
    flatKeys (c ++ ".") fs = (flatKeys "" fs).map (fun k => (c ++ ".") ++ k) := by
  rw [flatKeys, flatKeys, show (c ++ "." : String) = (c ++ ".") ++ "" from
    (String.append_empty _).symm, flatShapeF_shift (c ++ ".") "" fs]
  rw [String.append_empty, List.map_map, List.map_map]
  rfl

theorem all_const {α : Type} : ∀ (rows : List α) (f : α → Bool) (c : Bool),
    rows ≠ [] → (∀ r ∈ rows, f r = c) → rows.all f = c := by
  intro rows f c hne hall
  cases rows with
  | nil => exact absurd rfl hne
  | cons r rest =>
    cases hc : c with
    | true =>
      simp only [List.all_eq_true]
      intro x hx
      rw [hall x hx, hc]
    | false =>
      rw [List.all_cons, hall r (List.mem_cons_self r rest), hc]
      rfl

theorem rlookup_shape {r : List (String × JVal)} {s : List (String × SKind)}
    (hr : shapeL r = s) (k : String) :
    (rlookup r k).map JVal.shape = rlookup s k := by
  rw [← hr, shapeL_eq_map, rlookup_map]

theorem homog_lookup {r : List (String × JVal)} {s : List (String × SKind)}
    {k : String} {kd : SKind} (hr : shapeL r = s)
    (hk : rlookup s k = some kd) :
    ∃ v, rlookup r k = some v ∧ v.shape = kd := by
  have h := rlookup_shape hr k
  rw [hk] at h
  cases hv : rlookup r k with
  | none => rw [hv] at h; cases h
  | some v =>
    rw [hv] at h
    have h2 : some v.shape = some kd := h
    exact ⟨v, rfl, by injection h2⟩

theorem colNumericish_homog {s : List (String × SKind)} {k : String}
    {kd : SKind} (rows : List Record) (hne : rows ≠ [])
    (hhom : ∀ r ∈ rows, shapeL r = s) (hk : rlookup s k = some kd) :
    colNumericish rows k = kindNum kd := by
  rw [colNumericish]
  apply all_const rows _ _ hne
  intro r hr
  obtain ⟨v, hv, hs⟩ := homog_lookup (hhom r hr) hk
  rw [hv, numLikeJ_shape, hs]

theorem cell_class (kd : SKind) (v : JVal) (hv : v.shape = kd) :
    pNumLike (cellOf (kindNum kd) (some v)) = kindNum kd
    ∧ pIsBool (cellOf (kindNum kd) (some v)) = kindBool kd := by
  subst hv
  cases v <;> exact ⟨rfl, rfl⟩

theorem kindObjD_eq (kd : SKind) : (!(kindNum kd || kindBool kd)) = kindObjD kd := by
  cases kd <;> rfl

theorem colVals_homog {s : List (String × SKind)} {k : String} {kd : SKind}
    (rows : List Record) (hne : rows ≠ [])
    (hhom : ∀ r ∈ rows, shapeL r = s) (hk : rlookup s k = some kd) :
    colVals rows k = rows.map (fun r => cellOf (kindNum kd) (rlookup r k)) := by
  rw [colVals, colNumericish_homog rows hne hhom hk]

theorem isObjectDtype_homog {s : List (String × SKind)} {k : String}
    {kd : SKind} (rows : List Record) (hne : rows ≠ [])
    (hhom : ∀ r ∈ rows, shapeL r = s) (hk : rlookup s k = some kd) :
    isObjectDtype (colVals rows k) = kindObjD kd := by
  rw [isObjectDtype, colVals_homog rows hne hhom hk, ← kindObjD_eq]
  have hne2 : rows.map (fun r => cellOf (kindNum kd) (rlookup r k)) ≠ [] := by
    intro h
    exact hne (List.map_eq_nil_iff.mp h)
  have h1 : (rows.map (fun r => cellOf (kindNum kd) (rlookup r k))).all pNumLike
      = kindNum kd := by
    apply all_const _ _ _ hne2
    intro x hx
    rw [List.mem_map] at hx
    obtain ⟨r, hr, rfl⟩ := hx
    obtain ⟨v, hv, hs⟩ := homog_lookup (hhom r hr) hk
    rw [hv]
    exact (cell_class kd v hs).1
  have h2 : (rows.map (fun r => cellOf (kindNum kd) (rlookup r k))).all pIsBool
      = kindBool kd := by
    apply all_const _ _ _ hne2
    intro x hx
    rw [List.mem_map] at hx
    obtain ⟨r, hr, rfl⟩ := hx
    obtain ⟨v, hv, hs⟩ := homog_lookup (hhom r hr) hk
    rw [hv]
    exact (cell_class kd v hs).2
  rw [h1, h2]

theorem keysUnion_shape {s : List (String × SKind)} (rows : List Record)
    (hne : rows ≠ []) (hhom : ∀ r ∈ rows, shapeL r = s)
    (hnd : (s.map Prod.fst).Nodup) : keysUnion rows = s.map Prod.fst := by
  apply keysUnion_homog _ hnd _ hne
  intro r hr
  rw [← keys_shapeL, hhom r hr]

theorem fromRecords_midDF {s : List (String × SKind)} (rows : List Record)
    (start : Nat) (hne : rows ≠ []) (hhom : ∀ r ∈ rows, shapeL r = s)
    (hnd : (s.map Prod.fst).Nodup) :
    fromRecords start rows = midDF s rows start [] := by
  rw [fromRecords, midDF, expColsMid]
  simp only [List.filter_nil, List.flatMap_nil, List.append_nil]
  rw [keysUnion_shape rows hne hhom hnd, origColsMid]
  rw [List.filter_congr (q := fun _ => true) (by intro kv _; simp), List.filter_true]
  rw [List.map_map]
  exact congrArg (fun z => DF.mk start rows.length z)
    (List.map_congr_left (fun kv _ => by simp [Function.comp]))

theorem objColsOf_fromRecords {s : List (String × SKind)} (rows : List Record)
    (start : Nat) (hne : rows ≠ []) (hhom : ∀ r ∈ rows, shapeL r = s)
    (hnd : (s.map Prod.fst).Nodup) :
    objColsOf (fromRecords start rows) = objDKeys s := by
  rw [objColsOf, fromRecords, keysUnion_shape rows hne hhom hnd, List.map_map]
  rw [List.filter_map]
  rw [List.filter_congr (q := fun kv => kindObjD kv.2) ?pt]
  case pt =>
    intro kv hkv
    simp only [Function.comp]
    exact isObjectDtype_homog rows hne hhom (rlookup_self_of_nodup s hnd kv hkv)
  rw [objDKeys, List.map_map]
  rfl

theorem ShapeOK.keys_nodup {s : List (String × SKind)} (h : ShapeOK s) :
    (s.map Prod.fst).Nodup :=
  (List.nodup_append.mp h).1

theorem ShapeOK.exp_nodup {s : List (String × SKind)} (h : ShapeOK s) :
    (allExpNames s).Nodup :=
  (List.nodup_append.mp h).2.1

theorem ShapeOK.keys_exp_disj {s : List (String × SKind)} (h : ShapeOK s) :
    ∀ k ∈ s.map Prod.fst, k ∉ allExpNames s :=
  fun k hk => (List.nodup_append.mp h).2.2 hk

theorem objDKeys_nodup {s : List (String × SKind)}
    (hnd : (s.map Prod.fst).Nodup) : (objDKeys s).Nodup := by
  rw [objDKeys]
  exact List.Nodup.sublist (List.Sublist.map Prod.fst (List.filter_sublist s)) hnd

theorem mem_objDKeys {s : List (String × SKind)} {k : String}
    (hnd : (s.map Prod.fst).Nodup) (hk : k ∈ objDKeys s) :
    ∃ kd, rlookup s k = some kd ∧ kindObjD kd = true := by
  rw [objDKeys, List.mem_map] at hk
  obtain ⟨kv, hkv, rfl⟩ := hk
  rw [List.mem_filter] at hkv
  exact ⟨kv.2, rlookup_self_of_nodup s hnd kv hkv.1, hkv.2⟩

theorem objDKeys_sub {s : List (String × SKind)} {k : String}
    (hk : k ∈ objDKeys s) : k ∈ s.map Prod.fst := by
  rw [objDKeys, List.mem_map] at hk
  obtain ⟨kv, hkv, rfl⟩ := hk
  exact List.mem_map_of_mem Prod.fst (List.mem_of_mem_filter hkv)

theorem block_sub_allExp {s : List (String × SKind)} {k : String}
    {fs : List (String × SKind)} (hkv : (k, SKind.sObj fs) ∈ s) :
    ∀ x ∈ flatKeys (k ++ ".") fs, x ∈ allExpNames s := by
  intro x hx
  rw [allExpNames, List.mem_flatMap]
  exact ⟨(k, SKind.sObj fs), hkv, hx⟩

theorem nested_flatKeys_nodup {s : List (String × SKind)} {k : String}
    {fs : List (String × SKind)} (hok : ShapeOK s)
    (hkv : (k, SKind.sObj fs) ∈ s) : (flatKeys "" fs).Nodup := by
  have hblock : (flatKeys (k ++ ".") fs).Nodup := by
    have := (List.nodup_flatMap.mp hok.exp_nodup).1 (k, SKind.sObj fs) hkv
    simpa using this
  rw [flatKeys_shift] at hblock
  exact List.Nodup.of_map _ hblock

theorem blocks_disjoint {s : List (String × SKind)}
    (hok : ShapeOK s) {kv1 kv2 : String × SKind}
    (h1 : kv1 ∈ s) (h2 : kv2 ∈ s) (hne : kv1 ≠ kv2) :
    ∀ x ∈ (match kv1.2 with
      | SKind.sObj fs => flatKeys (kv1.1 ++ ".") fs
      | _ => []),
      x ∉ (match kv2.2 with
      | SKind.sObj fs => flatKeys (kv2.1 ++ ".") fs
      | _ => []) := by
  have hpw := (List.nodup_flatMap.mp hok.exp_nodup).2
  have hdisj := List.Pairwise.forall
    (fun a b (hab : List.Disjoint _ _) => List.Disjoint.symm hab) hpw h1 h2 hne
  intro x hx
  exact fun hx2 => hdisj hx hx2

theorem dictVals_shape {s : List (String × SKind)} {k : String}
    {fs : List (String × SKind)} (rows : List Record)
    (hhom : ∀ r ∈ rows, shapeL r = s)
    (hk : rlookup s k = some (SKind.sObj fs)) :
    ∀ d ∈ dictVals rows k, shapeL d = fs := by
  intro d hd
  rw [dictVals, List.mem_map] at hd
  obtain ⟨r, hr, rfl⟩ := hd
  obtain ⟨v, hv, hs⟩ := homog_lookup (hhom r hr) hk
  obtain ⟨kvs, rfl, hkvs⟩ := shape_sObj hs
  rw [hv]
  exact hkvs

theorem allDicts_homog {s : List (String × SKind)} {k : String}
    {fs : List (String × SKind)} (num : Bool) :
    ∀ (rows : List Record), (∀ r ∈ rows, shapeL r = s) →
    rlookup s k = some (SKind.sObj fs) →
    allDicts (rows.map (fun r => cellOf num (rlookup r k))) =
      some (dictVals rows k) := by
  intro rows
  induction rows with
  | nil => intro _ _; rfl
  | cons r rest ih =>
    intro hhom hk
    obtain ⟨v, hv, hs⟩ := homog_lookup (hhom r (List.mem_cons_self r rest)) hk
    obtain ⟨kvs, rfl, hkvs⟩ := shape_sObj hs
    rw [List.map_cons, hv]
    rw [show cellOf num (some (JVal.jobj kvs)) = PVal.pdict kvs from rfl, allDicts]
    rw [ih (fun x hx => hhom x (List.mem_cons_of_mem r hx)) hk]
    have hdv : dictVals (r :: rest) k = kvs :: dictVals rest k := by
      rw [dictVals, List.map_cons, hv]
      rfl
    rw [hdv]
    rfl

theorem normCols_names {s : List (String × SKind)} {k : String}
    {fs : List (String × SKind)} (rows : List Record) (hne : rows ≠ [])
    (hhom : ∀ r ∈ rows, shapeL r = s)
    (hk : rlookup s k = some (SKind.sObj fs))
    (hndf : (flatKeys "" fs).Nodup) :
    (normCols k (dictVals rows k)).map Prod.fst = flatKeys (k ++ ".") fs := by
  have hkeys : keysUnion ((dictVals rows k).map (flattenRecord "")) =
      flatKeys "" fs := by
    apply keysUnion_homog _ hndf
    · intro h
      rw [List.map_eq_nil_iff, dictVals, List.map_eq_nil_iff] at h
      exact hne h
    · intro fr hfr
      rw [List.mem_map] at hfr
      obtain ⟨d, hd, rfl⟩ := hfr
      have hds := dictVals_shape rows hhom hk d hd
      rw [← keys_shapeL, shapeL_flattenRecord, hds]
      rfl
  rw [normCols, List.map_map, hkeys, flatKeys_shift]
  rfl

theorem rlookup_mem {α : Type} : ∀ (l : List (String × α)) (k : String) (v : α),
    rlookup l k = some v → (k, v) ∈ l := by
  intro l
  induction l with
  | nil => intro k v h; cases h
  | cons kv r ih =>
    intro k v h
    rw [rlookup] at h
    by_cases hk : kv.1 = k
    · rw [if_pos hk] at h
      cases h
      rw [List.mem_cons]
      left
      rw [← hk]
    · rw [if_neg hk] at h
      exact List.mem_cons_of_mem kv (ih k v h)

theorem rlookup_append_left {α : Type} {l1 : List (String × α)} {k : String}
    {v : α} (h : rlookup l1 k = some v) (l2 : List (String × α)) :
    rlookup (l1 ++ l2) k = some v := by
  induction l1 with
  | nil => cases h
  | cons kv r ih =>
    rw [rlookup] at h
    rw [List.cons_append, rlookup]
    by_cases hk : kv.1 = k
    · rw [if_pos hk] at h ⊢; exact h
    · rw [if_neg hk] at h ⊢; exact ih h

theorem assoc_val_eq {s : List (String × SKind)} {kv : String × SKind}
    {kd : SKind} (hnd : (s.map Prod.fst).Nodup) (hmem : kv ∈ s)
    (hk : rlookup s kv.1 = some kd) : kv.2 = kd := by
  have := rlookup_self_of_nodup s hnd kv hmem
  rw [this] at hk
  injection hk

theorem origColsMid_keys (s : List (String × SKind)) (rows : List Record)
    (done : List String) :
    (origColsMid s rows done).map Prod.fst =
      (s.filter (fun kv => !(isObjKind kv.2 && decide (kv.1 ∈ done)))).map Prod.fst := by
  rw [origColsMid, List.map_map]
  rfl

theorem origColsMid_keys_nodup {s : List (String × SKind)}
    (hnd : (s.map Prod.fst).Nodup) (rows : List Record) (done : List String) :
    ((origColsMid s rows done).map Prod.fst).Nodup := by
  rw [origColsMid_keys]
  exact List.Nodup.sublist (List.Sublist.map Prod.fst (List.filter_sublist s)) hnd

theorem origColsMid_lookup {s : List (String × SKind)} {k : String} {kd : SKind}
    (rows : List Record) (done : List String)
    (hnd : (s.map Prod.fst).Nodup)
    (hk : rlookup s k = some kd)
    (hkeep : (!(isObjKind kd && decide (k ∈ done))) = true)
    (hnotdone : k ∉ done) :
    rlookup (origColsMid s rows done) k = some (colVals rows k) := by
  have hkv : (k, kd) ∈ s := rlookup_mem s k kd hk
  have hmem : (k, colVals rows k) ∈ origColsMid s rows done := by
    rw [origColsMid, List.mem_map]
    refine ⟨(k, kd), List.mem_filter.mpr ⟨hkv, hkeep⟩, ?_⟩
    simp [hnotdone]
  have := rlookup_self_of_nodup (origColsMid s rows done)
    (origColsMid_keys_nodup hnd rows done) (k, colVals rows k) hmem
  exact this

theorem expColsMid_names {s : List (String × SKind)} {start : Nat}
    (rows : List Record) (done : List String)
    (hne : rows ≠ []) (hhom : ∀ r ∈ rows, shapeL r = s) (hok : ShapeOK s) :
    ∀ p ∈ expColsMid s rows start done,
    ∃ k' fs', k' ∈ done ∧ rlookup s k' = some (SKind.sObj fs')
      ∧ p.1 ∈ flatKeys (k' ++ ".") fs' := by
  intro p hp
  rw [expColsMid, List.mem_flatMap] at hp
  obtain ⟨k', hk', hpin⟩ := hp
  rw [List.mem_filter] at hk'
  have hobj := hk'.2
  rw [isObjKeyIn] at hobj
  cases hl : rlookup s k' with
  | none => rw [hl] at hobj; cases hobj
  | some kd' =>
    rw [hl] at hobj
    cases kd' with
    | sObj fs' =>
      refine ⟨k', fs', hk'.1, hl, ?_⟩
      have hnames : (dictExpCols rows start k').map Prod.fst =
          flatKeys (k' ++ ".") fs' := by
        rw [dictExpCols, List.map_map,
          show (Prod.fst ∘ fun p : String × List PVal =>
            (p.1, alignCol start rows.length p.2)) = Prod.fst from rfl]
        exact normCols_names rows hne hhom hl
          (nested_flatKeys_nodup hok (rlookup_mem s k' _ hl))
      rw [← hnames]
      exact List.mem_map_of_mem Prod.fst hpin
    | sNull => cases hobj
    | sBool => cases hobj
    | sInt => cases hobj
    | sStr => cases hobj
    | sList => cases hobj

theorem expColsMid_name_notin_keys {s : List (String × SKind)} {start : Nat}
    (rows : List Record) (done : List String)
    (hne : rows ≠ []) (hhom : ∀ r ∈ rows, shapeL r = s) (hok : ShapeOK s) :
    ∀ p ∈ expColsMid s rows start done, p.1 ∉ s.map Prod.fst := by
  intro p hp hmem
  obtain ⟨k', fs', _, hl, hpin⟩ := expColsMid_names rows done hne hhom hok p hp
  exact hok.keys_exp_disj p.1 hmem
    (block_sub_allExp (rlookup_mem s k' _ hl) p.1 hpin)

theorem midDF_firstCell {s : List (String × SKind)} {k : String} {kd : SKind}
    (rows : List Record) (start : Nat) (done : List String)
    (hne : rows ≠ []) (hhom : ∀ r ∈ rows, shapeL r = s) (hok : ShapeOK s)
    (hk : rlookup s k = some kd)
    (hkeep : (!(isObjKind kd && decide (k ∈ done))) = true)
    (hnotdone : k ∉ done) :
    rlookup (midDF s rows start done).cols k = some (colVals rows k) := by
  rw [midDF]
  exact rlookup_append_left
    (origColsMid_lookup rows done hok.keys_nodup hk hkeep hnotdone) _

theorem donePred_congr {k : String} (done : List String) (kv : String × SKind)
    (hne : kv.1 ≠ k) :
    decide (kv.1 ∈ done ++ [k]) = decide (kv.1 ∈ done) := by
  apply decide_eq_decide.mpr
  simp [hne]

theorem isObjKeyIn_false {s : List (String × SKind)} {k : String} {kd : SKind}
    (hk : rlookup s k = some kd) (hobj : isObjKind kd = false) :
    isObjKeyIn s k = false := by
  rw [isObjKeyIn, hk]
  cases kd with
  | sObj fs => simp [isObjKind] at hobj
  | sNull => rfl
  | sBool => rfl
  | sInt => rfl
  | sStr => rfl
  | sList => rfl

theorem midDF_skip {s : List (String × SKind)} {k : String} {kd : SKind}
    (rows : List Record) (start : Nat) (done : List String)
    (hndk : (s.map Prod.fst).Nodup) (hk : rlookup s k = some kd)
    (hobj : isObjKind kd = false) (hlist : isListKind kd = false) :
    midDF s rows start (done ++ [k]) = midDF s rows start done := by
  rw [midDF, midDF]
  have hcols : origColsMid s rows (done ++ [k]) = origColsMid s rows done := by
    rw [origColsMid, origColsMid]
    rw [List.filter_congr (q := fun kv =>
      !(isObjKind kv.2 && decide (kv.1 ∈ done))) ?pc]
    case pc =>
      intro kv hkv
      by_cases hkk : kv.1 = k
      · have hv : kv.2 = kd := assoc_val_eq hndk hkv (hkk ▸ hk)
        simp [hv, hobj]
      · simp [hkk]
    apply List.map_congr_left
    intro kv hkv
    rw [List.mem_filter] at hkv
    by_cases hkk : kv.1 = k
    · have hv : kv.2 = kd := assoc_val_eq hndk hkv.1 (hkk ▸ hk)
      simp [hv, hlist]
    · simp [hkk]
  have hexp : expColsMid s rows start (done ++ [k]) = expColsMid s rows start done := by
    rw [expColsMid, expColsMid, List.filter_append]
    have h1 : List.filter (isObjKeyIn s) [k] = [] := by
      simp [isObjKeyIn_false hk hobj]
    rw [h1, List.append_nil]
  rw [hcols, hexp]

theorem midDF_list_cols {s : List (String × SKind)} {k : String}
    (rows : List Record) (start : Nat) (done : List String)
    (hne : rows ≠ []) (hhom : ∀ r ∈ rows, shapeL r = s) (hok : ShapeOK s)
    (hk : rlookup s k = some SKind.sList) (hnotdone : k ∉ done) :
    (midDF s rows start done).cols.map
      (fun p => if p.1 == k then (p.1, p.2.map listifyCell) else p) =
    (midDF s rows start (done ++ [k])).cols := by
  have hkmem : k ∈ s.map Prod.fst :=
    List.mem_map_of_mem Prod.fst (rlookup_mem s k _ hk)
  rw [midDF, midDF]
  simp only [List.map_append]
  refine congrArg₂ (· ++ ·) ?horig ?hexp
  case horig =>
    rw [origColsMid, origColsMid, List.map_map]
    rw [List.filter_congr (q := fun kv =>
      !(isObjKind kv.2 && decide (kv.1 ∈ done ++ [k]))) ?pc]
    case pc =>
      intro kv hkv
      by_cases hkk : kv.1 = k
      · have hv : kv.2 = SKind.sList := assoc_val_eq hok.keys_nodup hkv (hkk ▸ hk)
        simp [hv, isObjKind]
      · simp [hkk]
    apply List.map_congr_left
    intro kv hkv
    rw [List.mem_filter] at hkv
    by_cases hkk : kv.1 = k
    · have hv : kv.2 = SKind.sList := assoc_val_eq hok.keys_nodup hkv.1 (hkk ▸ hk)
      simp only [Function.comp, hkk, hv, beq_self_eq_true, if_true, isListKind]
      simp [hnotdone]
    · simp only [Function.comp]
      rw [if_neg (by simp [hkk])]
      simp [hkk]
  case hexp =>
    have hio : isObjKeyIn s k = false := isObjKeyIn_false hk rfl
    have h1 : expColsMid s rows start (done ++ [k]) = expColsMid s rows start done := by
      rw [expColsMid, expColsMid, List.filter_append]
      simp [hio]
    rw [h1]
    have h2 : ∀ p ∈ expColsMid s rows start done, p.1 ≠ k := by
      intro p hp h
      exact expColsMid_name_notin_keys rows done hne hhom hok p hp (h ▸ hkmem)
    rw [List.map_congr_left (g := id) ?pw, List.map_id]
    case pw =>
      intro p hp
      rw [if_neg (by simp [h2 p hp])]
      rfl

theorem midDF_dict_cols {s : List (String × SKind)} {k : String}
    {fs : List (String × SKind)}
    (rows : List Record) (start : Nat) (done : List String)
    (hne : rows ≠ []) (hhom : ∀ r ∈ rows, shapeL r = s) (hok : ShapeOK s)
    (hk : rlookup s k = some (SKind.sObj fs)) (hnotdone : k ∉ done) :
    (dropCol (midDF s rows start done) k).cols ++
      (normCols k (dictVals rows k)).map
        (fun p => (p.1, alignCol start rows.length p.2)) =
    (midDF s rows start (done ++ [k])).cols := by
  have hkmem : k ∈ s.map Prod.fst :=
    List.mem_map_of_mem Prod.fst (rlookup_mem s k _ hk)
  rw [dropCol, midDF, midDF]
  simp only [List.filter_append]
  have hexpf : (expColsMid s rows start done).filter (fun p => p.1 != k) =
      expColsMid s rows start done := by
    rw [List.filter_eq_self]
    intro p hp
    have h2 : p.1 ≠ k := fun h =>
      expColsMid_name_notin_keys rows done hne hhom hok p hp (h ▸ hkmem)
    simp [h2]
  have horig : (origColsMid s rows done).filter (fun p => p.1 != k) =
      origColsMid s rows (done ++ [k]) := by
    rw [origColsMid, origColsMid, List.filter_map, List.filter_filter]
    rw [List.filter_congr (q := fun kv =>
      !(isObjKind kv.2 && decide (kv.1 ∈ done ++ [k]))) ?pc]
    case pc =>
      intro kv hkv
      by_cases hkk : kv.1 = k
      · have hv : kv.2 = SKind.sObj fs := assoc_val_eq hok.keys_nodup hkv (hkk ▸ hk)
        simp [Function.comp, hkk, hv, isObjKind]
      · simp [Function.comp, hkk]
    apply List.map_congr_left
    intro kv hkv
    rw [List.mem_filter] at hkv
    have hkk : kv.1 ≠ k := by
      intro h
      have hv : kv.2 = SKind.sObj fs := assoc_val_eq hok.keys_nodup hkv.1 (h ▸ hk)
      rw [hv] at hkv
      simp [isObjKind, h] at hkv
    simp [hkk]
  have hexp' : expColsMid s rows start (done ++ [k]) =
      expColsMid s rows start done ++ dictExpCols rows start k := by
    rw [expColsMid, expColsMid, List.filter_append]
    have hio : isObjKeyIn s k = true := by rw [isObjKeyIn, hk]
    rw [List.flatMap_append]
    simp [hio]
  rw [horig, hexpf, hexp', ← List.append_assoc]
  rfl

theorem origColsMid_name_in_keys {s : List (String × SKind)}
    (rows : List Record) (done : List String) :
    ∀ q ∈ origColsMid s rows done, q.1 ∈ s.map Prod.fst := by
  intro q hq
  have := List.mem_map_of_mem Prod.fst hq
  rw [origColsMid_keys] at this
  rw [List.mem_map] at this
  obtain ⟨kv, hkv, hfst⟩ := this
  rw [← hfst]
  exact List.mem_map_of_mem Prod.fst (List.mem_of_mem_filter hkv)

theorem flattenStep_mid {s : List (String × SKind)} (rows : List Record)
    (start : Nat) (done todo : List String) (k : String)
    (hne : rows ≠ []) (hhom : ∀ r ∈ rows, shapeL r = s) (hok : ShapeOK s)
    (hsplit : objDKeys s = done ++ k :: todo) :
    flattenStep (midDF s rows start done) k =
      .ok (midDF s rows start (done ++ [k])) := by
  have hndk := hok.keys_nodup
  have hknd : (objDKeys s).Nodup := objDKeys_nodup hndk
  have hkobj : k ∈ objDKeys s := by
    rw [hsplit]
    exact List.mem_append_right _ (List.mem_cons_self _ _)
  have hnotdone : k ∉ done := by
    rw [hsplit] at hknd
    intro hmem
    exact (List.nodup_append.mp hknd).2.2 hmem (List.mem_cons_self _ _)
  obtain ⟨kd, hk, hobjD⟩ := mem_objDKeys hndk hkobj
  have hkeep : (!(isObjKind kd && decide (k ∈ done))) = true := by
    simp [hnotdone]
  have hlk := midDF_firstCell rows start done hne hhom hok hk hkeep hnotdone
  obtain ⟨r0, rest, rfl⟩ : ∃ a l, rows = a :: l := by
    cases rows with
    | nil => exact absurd rfl hne
    | cons a l => exact ⟨a, l, rfl⟩
  obtain ⟨v0, hv0, hs0⟩ := homog_lookup (hhom r0 (List.mem_cons_self _ _)) hk
  have hfc : firstCell (midDF s (r0 :: rest) start done) k =
      some (cellOf (colNumericish (r0 :: rest) k) (some v0)) := by
    rw [firstCell, hlk, colVals, List.map_cons, hv0]
    rfl
  cases kd with
  | sNull => simp [kindObjD] at hobjD
  | sInt => simp [kindObjD] at hobjD
  | sBool => simp [kindObjD] at hobjD
  | sStr =>
    obtain ⟨s0, rfl⟩ := shape_sStr hs0
    rw [flattenStep, hfc]
    simp only [cellOf]
    rw [midDF_skip (r0 :: rest) start done hndk hk rfl rfl]
  | sList =>
    obtain ⟨xs0, rfl⟩ := shape_sList hs0
    rw [flattenStep, hfc]
    simp only [cellOf]
    exact congrArg Except.ok
      (congrArg (fun z => DF.mk start (r0 :: rest).length z)
        (midDF_list_cols (r0 :: rest) start done hne hhom hok hk hnotdone))
  | sObj fs =>
    obtain ⟨kvs0, rfl, hkvs0⟩ := shape_sObj hs0
    have hfc' : firstCell (midDF s (r0 :: rest) start done) k =
        some (PVal.pdict kvs0) := hfc
    have had : allDicts (colVals (r0 :: rest) k) =
        some (dictVals (r0 :: rest) k) := by
      rw [colVals_homog (r0 :: rest) hne hhom hk]
      exact allDicts_homog _ (r0 :: rest) hhom hk
    have hkvmem : (k, SKind.sObj fs) ∈ s := rlookup_mem s k _ hk
    have hnames := normCols_names (r0 :: rest) hne hhom hk
      (nested_flatKeys_nodup hok hkvmem)
    have hcol : ∀ p ∈ normCols k (dictVals (r0 :: rest) k),
        p.1 ∉ (dropCol (midDF s (r0 :: rest) start done) k).cols.map Prod.fst := by
      intro p hp hmem
      have hblock : p.1 ∈ flatKeys (k ++ ".") fs := by
        rw [← hnames]
        exact List.mem_map_of_mem Prod.fst hp
      rw [dropCol] at hmem
      simp only at hmem
      rw [List.mem_map] at hmem
      obtain ⟨q, hq, hqfst⟩ := hmem
      have hq2 := List.mem_of_mem_filter hq
      rw [midDF] at hq2
      simp only at hq2
      rw [List.mem_append] at hq2
      rcases hq2 with hq2 | hq2
      · have hqk := origColsMid_name_in_keys (r0 :: rest) done q hq2
        rw [hqfst] at hqk
        exact hok.keys_exp_disj p.1 hqk (block_sub_allExp hkvmem p.1 hblock)
      · obtain ⟨k', fs', hk'done, hlk', hq1⟩ :=
          expColsMid_names (r0 :: rest) done hne hhom hok q hq2
        have hkk' : k' ≠ k := fun h => hnotdone (h ▸ hk'done)
        have hkvmem' : (k', SKind.sObj fs') ∈ s := rlookup_mem s k' _ hlk'
        have hdisj := blocks_disjoint hok hkvmem hkvmem'
          (by intro h; exact hkk' (congrArg Prod.fst h).symm)
        rw [hqfst] at hq1
        exact hdisj p.1 hblock hq1
    rw [flattenStep_dict (midDF s (r0 :: rest) start done) k kvs0
      (colVals (r0 :: rest) k) (dictVals (r0 :: rest) k) hfc' hlk had hcol]
    exact congrArg Except.ok
      (congrArg (fun z => DF.mk start (r0 :: rest).length z)
        (midDF_dict_cols (r0 :: rest) start done hne hhom hok hk hnotdone))

theorem foldlM_mid {s : List (String × SKind)} (rows : List Record)
    (start : Nat) (hne : rows ≠ []) (hhom : ∀ r ∈ rows, shapeL r = s)
    (hok : ShapeOK s) :
    ∀ (todo done : List String), objDKeys s = done ++ todo →
    List.foldlM flattenStep (midDF s rows start done) todo =
      .ok (midDF s rows start (done ++ todo)) := by
  intro todo
  induction todo with
  | nil =>
    intro done h
    rw [List.append_nil]
    rfl
  | cons k rest ih =>
    intro done hsplit
    rw [List.foldlM]
    rw [flattenStep_mid rows start done rest k hne hhom hok hsplit]
    have hbind : (Except.ok (midDF s rows start (done ++ [k])) >>=
        fun s' => List.foldlM flattenStep s' rest) =
        List.foldlM flattenStep (midDF s rows start (done ++ [k])) rest := rfl
    rw [hbind, ih (done ++ [k]) (by rw [hsplit, List.append_assoc]; rfl)]
    rw [List.append_assoc]
    rfl

theorem flattenChunk_homog {s : List (String × SKind)} (rows : List Record)
    (start : Nat) (hne : rows ≠ []) (hhom : ∀ r ∈ rows, shapeL r = s)
    (hok : ShapeOK s) :
    flattenChunk (fromRecords start rows) =
      .ok (midDF s rows start (objDKeys s)) := by
  rw [flattenChunk, objColsOf_fromRecords rows start hne hhom hok.keys_nodup,
    fromRecords_midDF rows start hne hhom hok.keys_nodup]
  exact foldlM_mid rows start hne hhom hok (objDKeys s) [] rfl

theorem flatMap_congr {α β : Type} {f g : α → List β} :
    ∀ (l : List α), (∀ a ∈ l, f a = g a) → l.flatMap f = l.flatMap g := by
  intro l
  induction l with
  | nil => intro _; rfl
  | cons a as ih =>
    intro h
    rw [List.flatMap_cons, List.flatMap_cons, h a (List.mem_cons_self a as),
      ih (fun x hx => h x (List.mem_cons_of_mem a hx))]

theorem flatMap_filter_eq {α β : Type} {f : α → List β} {p : α → Bool} :
    ∀ (l : List α), (∀ a ∈ l, p a = false → f a = []) →
    (l.filter p).flatMap f = l.flatMap f := by
  intro l
  induction l with
  | nil => intro _; rfl
  | cons a as ih =>
    intro h
    rw [List.flatMap_cons, List.filter_cons]
    by_cases hp : p a = true
    · rw [if_pos hp, List.flatMap_cons,
        ih (fun x hx => h x (List.mem_cons_of_mem a hx))]
    · rw [Bool.not_eq_true] at hp
      rw [hp]
      simp only [Bool.false_eq_true, if_false]
      rw [h a (List.mem_cons_self a as) hp, List.nil_append,
        ih (fun x hx => h x (List.mem_cons_of_mem a hx))]

theorem midDF_final_names {s : List (String × SKind)} (rows : List Record)
    (start : Nat) (hne : rows ≠ []) (hhom : ∀ r ∈ rows, shapeL r = s)
    (hok : ShapeOK s) :
    (midDF s rows start (objDKeys s)).cols.map Prod.fst = finalNames s := by
  rw [midDF, List.map_append, finalNames]
  refine congrArg₂ (· ++ ·) ?ha ?hb
  case ha =>
    rw [origColsMid_keys]
    apply congrArg (List.map Prod.fst)
    apply List.filter_congr
    intro kv hkv
    by_cases ho : isObjKind kv.2 = true
    · have hmem : kv.1 ∈ objDKeys s := by
        rw [objDKeys]
        apply List.mem_map_of_mem Prod.fst
        rw [List.mem_filter]
        refine ⟨hkv, ?_⟩
        cases h2 : kv.2 with
        | sObj fs => rfl
        | sNull => rw [h2] at ho; cases ho
        | sBool => rw [h2] at ho; cases ho
        | sInt => rw [h2] at ho; cases ho
        | sStr => rw [h2] at ho; cases ho
        | sList => rw [h2] at ho; cases ho
      simp [ho, hmem]
    · rw [Bool.not_eq_true] at ho
      simp [ho]
  case hb =>
    rw [expColsMid, allExpNames]
    have hstep1 : (objDKeys s).filter (isObjKeyIn s) =
        (s.filter (fun kv => isObjKind kv.2)).map Prod.fst := by
      rw [objDKeys, List.filter_map, List.filter_filter]
      apply congrArg (List.map Prod.fst)
      apply List.filter_congr
      intro kv hkv
      have hl : rlookup s kv.1 = some kv.2 :=
        rlookup_self_of_nodup s hok.keys_nodup kv hkv
      have hio : isObjKeyIn s kv.1 = isObjKind kv.2 := by
        rw [isObjKeyIn, hl]
        cases kv.2 <;> rfl
      simp only [Function.comp, hio]
      cases kv.2 <;> rfl
    rw [hstep1]
    have hstep2 : (((s.filter (fun kv => isObjKind kv.2)).map Prod.fst).flatMap
        (dictExpCols rows start)).map Prod.fst =
        (s.filter (fun kv => isObjKind kv.2)).flatMap (fun kv =>
          match kv.2 with
          | SKind.sObj fs => flatKeys (kv.1 ++ ".") fs
          | _ => []) := by
      rw [List.map_flatMap, List.flatMap_map]
      apply flatMap_congr
      intro kv hkv
      rw [List.mem_filter] at hkv
      cases h2 : kv.2 with
      | sObj fs =>
        have hl : rlookup s kv.1 = some (SKind.sObj fs) := by
          rw [← h2]
          exact rlookup_self_of_nodup s hok.keys_nodup kv hkv.1
        simp only [Function.comp]
        rw [dictExpCols, List.map_map,
          show (Prod.fst ∘ fun p : String × List PVal =>
            (p.1, alignCol start rows.length p.2)) = Prod.fst from rfl]
        exact normCols_names rows hne hhom hl
          (nested_flatKeys_nodup hok (rlookup_mem s kv.1 _ hl))
      | sNull => rw [h2] at hkv; cases hkv.2
      | sBool => rw [h2] at hkv; cases hkv.2
      | sInt => rw [h2] at hkv; cases hkv.2
      | sStr => rw [h2] at hkv; cases hkv.2
      | sList => rw [h2] at hkv; cases hkv.2
    rw [hstep2]
    apply flatMap_filter_eq
    intro kv _ hobj
    cases h2 : kv.2 with
    | sObj fs => rw [h2] at hobj; cases hobj
    | sNull => rfl
    | sBool => rfl
    | sInt => rfl
    | sStr => rfl
    | sList => rfl

/-- The flattened frames the loop writes for the given chunks, with the
running first-label bookkeeping of the reader. -/
def chunkDFs (s : List (String × SKind)) :
    List (List Record) → Nat → List DF
  | [], _ => []
  | c :: cs, start => midDF s c start (objDKeys s) :: chunkDFs s cs (start + c.length)

theorem chunkDFs_length (s : List (String × SKind)) :
    ∀ (chunks : List (List Record)) (start : Nat),
    (chunkDFs s chunks start).length = chunks.length := by
  intro chunks
  induction chunks with
  | nil => intro start; rfl
  | cons c cs ih => intro start; rw [chunkDFs]; simp [ih]

theorem chunkDFs_nrows (s : List (String × SKind)) :
    ∀ (chunks : List (List Record)) (start : Nat),
    (chunkDFs s chunks start).map DF.nrows = chunks.map List.length := by
  intro chunks
  induction chunks with
  | nil => intro start; rfl
  | cons c cs ih =>
    intro start
    rw [chunkDFs, List.map_cons, List.map_cons, ih]
    rfl

theorem chunkDFs_names {s : List (String × SKind)} (hok : ShapeOK s) :
    ∀ (chunks : List (List Record)) (start : Nat),
    (∀ c ∈ chunks, c ≠ [] ∧ ∀ r ∈ c, shapeL r = s) →
    ∀ df ∈ chunkDFs s chunks start, df.cols.map Prod.fst = finalNames s := by
  intro chunks
  induction chunks with
  | nil => intro start _ df hdf; simp [chunkDFs] at hdf
  | cons c cs ih =>
    intro start hall df hdf
    rw [chunkDFs, List.mem_cons] at hdf
    rcases hdf with hdf | hdf
    · rw [hdf]
      exact midDF_final_names c start (hall c (List.mem_cons_self c cs)).1
        (hall c (List.mem_cons_self c cs)).2 hok
    · exact ih (start + c.length)
        (fun x hx => hall x (List.mem_cons_of_mem c hx)) df hdf

theorem stepChunk_ok_homog {s : List (String × SKind)} {codec : String}
    (hcodec : validCodec codec = true) (i start : Nat) (c : List Record)
    (st : WState) (hcne : c ≠ []) (hchom : ∀ r ∈ c, shapeL r = s)
    (hok : ShapeOK s) :
    stepChunk codec i start c st =
      .ok { file := some ((st.file.getD []) ++ [(codec, midDF s c start (objDKeys s))])
            metrics := bumpMetrics st.metrics
            events := (st.events ++ [.readChunk i]) ++
              [if st.file.isNone then Ev.createFile else Ev.appendFile] } := by
  rw [stepChunk]
  rw [flattenChunk_homog c start hcne hchom hok]
  simp only [hcodec, if_true]

theorem convLoop_homog_app {s : List (String × SKind)} {codec : String}
    (hcodec : validCodec codec = true) (hok : ShapeOK s) :
    ∀ (chunks : List (List Record)) (i start : Nat) (st : WState)
    (ws0 : List (String × DF)),
    st.file = some ws0 →
    (∀ c ∈ chunks, c ≠ [] ∧ ∀ r ∈ c, shapeL r = s) →
    (convLoop codec chunks i start st).2 = true
    ∧ (convLoop codec chunks i start st).1.file =
        some (ws0 ++ (chunkDFs s chunks start).map (fun d => (codec, d)))
    ∧ ∃ tail, (convLoop codec chunks i start st).1.events = st.events ++ tail
        ∧ tail.count Ev.createFile = 0
        ∧ tail.count Ev.appendFile = chunks.length := by
  intro chunks
  induction chunks with
  | nil =>
    intro i start st ws0 hfile _
    refine ⟨rfl, by simp [convLoop, hfile, chunkDFs], [], by simp [convLoop], rfl, rfl⟩
  | cons c cs ih =>
    intro i start st ws0 hfile hall
    have hstep := stepChunk_ok_homog hcodec i start c st
      (hall c (List.mem_cons_self c cs)).1 (hall c (List.mem_cons_self c cs)).2 hok
    rw [convLoop, hstep]
    obtain ⟨hok2, hfile2, tail, hev, hc0, hc1⟩ := ih (i + 1) (start + c.length)
      { file := some ((st.file.getD []) ++ [(codec, midDF s c start (objDKeys s))]),
        metrics := bumpMetrics st.metrics,
        events := (st.events ++ [.readChunk i]) ++
          [if st.file.isNone then Ev.createFile else Ev.appendFile] }
      (ws0 ++ [(codec, midDF s c start (objDKeys s))])
      (by simp [hfile])
      (fun x hx => hall x (List.mem_cons_of_mem c hx))
    refine ⟨hok2, ?_, ?_⟩
    · rw [hfile2, chunkDFs, List.map_cons, List.append_assoc]
      rfl
    · refine ⟨[Ev.readChunk i,
        if st.file.isNone then Ev.createFile else Ev.appendFile] ++ tail, ?_, ?_, ?_⟩
      · rw [hev]
        simp [List.append_assoc]
      · rw [List.count_append, hc0]
        rw [hfile]
        simp [List.count_cons, List.count_nil]
      · rw [List.count_append, hc1]
        rw [hfile]
        simp [List.count_cons, List.count_nil]
        omega

theorem convLoop_homog_start {s : List (String × SKind)} {codec : String}
    (hcodec : validCodec codec = true) (hok : ShapeOK s)
    (chunks : List (List Record)) (i start : Nat) (st : WState)
    (hfile : st.file = none)
    (hall : ∀ c ∈ chunks, c ≠ [] ∧ ∀ r ∈ c, shapeL r = s)
    (hnech : chunks ≠ []) :
    (convLoop codec chunks i start st).2 = true
    ∧ (convLoop codec chunks i start st).1.file =
        some ((chunkDFs s chunks start).map (fun d => (codec, d)))
    ∧ ∃ tail, (convLoop codec chunks i start st).1.events = st.events ++ tail
        ∧ tail.count Ev.createFile = 1
        ∧ tail.count Ev.appendFile = chunks.length - 1 := by
  cases chunks with
  | nil => exact absurd rfl hnech
  | cons c cs =>
    have hstep := stepChunk_ok_homog hcodec i start c st
      (hall c (List.mem_cons_self c cs)).1 (hall c (List.mem_cons_self c cs)).2 hok
    rw [convLoop, hstep]
    obtain ⟨hok2, hfile2, tail, hev, hc0, hc1⟩ :=
      convLoop_homog_app hcodec hok cs (i + 1) (start + c.length)
      { file := some ((st.file.getD []) ++ [(codec, midDF s c start (objDKeys s))]),
        metrics := bumpMetrics st.metrics,
        events := (st.events ++ [.readChunk i]) ++
          [if st.file.isNone then Ev.createFile else Ev.appendFile] }
      ([(codec, midDF s c start (objDKeys s))])
      (by simp [hfile])
      (fun x hx => hall x (List.mem_cons_of_mem c hx))
    refine ⟨hok2, ?_, ?_⟩
    · rw [hfile2, chunkDFs, List.map_cons]
      rfl
    · refine ⟨[Ev.readChunk i, Ev.createFile] ++ tail, ?_, ?_, ?_⟩
      · rw [hev]
        simp [hfile, List.append_assoc]
      · rw [List.count_append, hc0]
        simp [List.count_cons, List.count_nil]
      · rw [List.count_append, hc1]
        simp [List.count_cons, List.count_nil]

theorem chunksOfF_fuel : ∀ (f1 f2 b : Nat) (rows : List Record), b ≠ 0 →
    rows.length ≤ f1 → rows.length ≤ f2 →
    chunksOfF f1 b rows = chunksOfF f2 b rows := by
  intro f1
  induction f1 with
  | zero =>
    intro f2 b rows _ h1 _
    rw [Nat.le_zero] at h1
    rw [List.length_eq_zero] at h1
    subst h1
    cases f2 <;> rfl
  | succ f1 ih =>
    intro f2 b rows hb h1 h2
    cases rows with
    | nil => cases f2 <;> rfl
    | cons r rest =>
      cases f2 with
      | zero => simp at h2
      | succ m =>
        rw [chunksOfF, chunksOfF]
        have hd : (rest.drop (b - 1)).length ≤ rest.length := by
          rw [List.length_drop]
          omega
        rw [List.length_cons] at h1 h2
        rw [ih m b (rest.drop (b - 1)) hb (by omega) (by omega)]

theorem chunksOf_consE (b : Nat) (hb : b ≠ 0) (r : Record)
    (rest : List Record) :
    chunksOf b (r :: rest) =
      (r :: rest.take (b - 1)) :: chunksOf b (rest.drop (b - 1)) := by
  rw [chunksOf, chunksOf]
  rw [show (r :: rest).length = rest.length + 1 from rfl, chunksOfF]
  have hd : (rest.drop (b - 1)).length ≤ rest.length := by
    rw [List.length_drop]
    omega
  rw [chunksOfF_fuel rest.length (rest.drop (b - 1)).length b _ hb hd (Nat.le_refl _)]

theorem chunksOfF_mem : ∀ (fuel b : Nat) (rows : List Record), b ≠ 0 →
    rows.length ≤ fuel → ∀ c ∈ chunksOfF fuel b rows,
    c ≠ [] ∧ ∀ r ∈ c, r ∈ rows := by
  intro fuel
  induction fuel with
  | zero => intro b rows _ _ c hc; simp [chunksOfF] at hc
  | succ fuel ih =>
    intro b rows hb hf c hc
    cases rows with
    | nil => simp [chunksOfF] at hc
    | cons r rest =>
      rw [chunksOfF, List.mem_cons] at hc
      rcases hc with hc | hc
      · subst hc
        refine ⟨by simp, ?_⟩
        intro x hx
        rw [List.mem_cons] at hx
        rcases hx with hx | hx
        · rw [hx]; exact List.mem_cons_self r rest
        · exact List.mem_cons_of_mem r (List.mem_of_mem_take hx)
      · rw [List.length_cons] at hf
        have hd : (rest.drop (b - 1)).length ≤ fuel := by
          rw [List.length_drop]
          omega
        obtain ⟨hne, hmem⟩ := ih b (rest.drop (b - 1)) hb hd c hc
        refine ⟨hne, fun x hx => ?_⟩
        exact List.mem_cons_of_mem r (List.mem_of_mem_drop (hmem x hx))

theorem chunksOfF_flatten : ∀ (fuel b : Nat) (rows : List Record), b ≠ 0 →
    rows.length ≤ fuel → (chunksOfF fuel b rows).flatten = rows := by
  intro fuel
  induction fuel with
  | zero =>
    intro b rows _ h1
    rw [Nat.le_zero, List.length_eq_zero] at h1
    subst h1
    rfl
  | succ fuel ih =>
    intro b rows hb hf
    cases rows with
    | nil => rfl
    | cons r rest =>
      rw [chunksOfF, List.flatten_cons]
      rw [List.length_cons] at hf
      have hd : (rest.drop (b - 1)).length ≤ fuel := by
        rw [List.length_drop]
        omega
      rw [ih b (rest.drop (b - 1)) hb hd]
      rw [List.cons_append, List.take_append_drop]

theorem chunksOf_mem {b : Nat} (hb : b ≠ 0) (rows : List Record) :
    ∀ c ∈ chunksOf b rows, c ≠ [] ∧ ∀ r ∈ c, r ∈ rows :=
  chunksOfF_mem rows.length b rows hb (Nat.le_refl _)

theorem chunksOf_flatten {b : Nat} (hb : b ≠ 0) (rows : List Record) :
    (chunksOf b rows).flatten = rows :=
  chunksOfF_flatten rows.length b rows hb (Nat.le_refl _)

theorem chunksOf_rowsum {b : Nat} (hb : b ≠ 0) (rows : List Record) :
    ((chunksOf b rows).map List.length).sum = rows.length := by
  rw [← List.length_flatten, chunksOf_flatten hb]

theorem chunksOf_two {b : Nat} (hb : b ≠ 0) {rows : List Record}
    (h : b < rows.length) : 2 ≤ (chunksOf b rows).length := by
  cases rows with
  | nil => simp at h
  | cons r rest =>
    rw [chunksOf_consE b hb]
    rw [List.length_cons]
    have hrest : rest.drop (b - 1) ≠ [] := by
      intro hnil
      have := congrArg List.length hnil
      rw [List.length_drop] at this
      rw [List.length_cons] at h
      simp at this
      omega
    cases hd : rest.drop (b - 1) with
    | nil => exact absurd hd hrest
    | cons x xs =>
      rw [chunksOf_consE b hb x xs]
      simp

theorem chunksOf_ne_nil {b : Nat} (hb : b ≠ 0) {rows : List Record}
    (h : rows ≠ []) : chunksOf b rows ≠ [] := by
  cases rows with
  | nil => exact absurd rfl h
  | cons r rest =>
    rw [chunksOf_consE b hb]
    simp

theorem convert_homog_run {s : List (String × SKind)} (rows : List Record)
    (codec : String) (b : Nat) (hne : rows ≠ [])
    (hhom : ∀ r ∈ rows, shapeL r = s) (hok : ShapeOK s)
    (hcodec : validCodec codec = true) (hb : b ≠ 0) :
    (convert_jsonl_to_parquet (some rows) codec b).ok = true
    ∧ (convert_jsonl_to_parquet (some rows) codec b).file =
        some ((chunkDFs s (chunksOf b rows) 0).map (fun d => (codec, d)))
    ∧ (convert_jsonl_to_parquet (some rows) codec b).events.count Ev.createFile = 1
    ∧ (convert_jsonl_to_parquet (some rows) codec b).events.count Ev.appendFile =
        (chunksOf b rows).length - 1 := by
  have hall : ∀ c ∈ chunksOf b rows, c ≠ [] ∧ ∀ r ∈ c, shapeL r = s := by
    intro c hc
    exact ⟨(chunksOf_mem hb rows c hc).1,
      fun r hr => hhom r ((chunksOf_mem hb rows c hc).2 r hr)⟩
  have hchne : chunksOf b rows ≠ [] := chunksOf_ne_nil hb hne
  have hloop := convLoop_homog_start hcodec hok (chunksOf b rows) 0 0
    ⟨none, { metricsInit with input_size := rows.length }, [.readSize]⟩ rfl hall hchne
  have hspec := convLoop_spec codec (chunksOf b rows) 0 0
    ⟨none, { metricsInit with input_size := rows.length }, [.readSize]⟩ []
    (by simp [metricsInit, postInit])
  simp only [convert_jsonl_to_parquet]
  cases hres : convLoop codec (chunksOf b rows) 0 0
      ⟨none, { metricsInit with input_size := rows.length }, [.readSize]⟩ with
  | mk st okb =>
    rw [hres] at hloop hspec
    simp only at hloop hspec
    obtain ⟨hokb, hfile, tail, hev, hcc, hca⟩ := hloop
    obtain ⟨hct, _, hin, _, _, hiff⟩ := hspec
    subst hokb
    simp only [Bool.not_true, if_false]
    rw [hfile]
    have hcomp : completedChunks codec (chunksOf b rows) 0 = (chunksOf b rows).length :=
      hiff.mp rfl
    rw [List.nil_append] at hct
    have hlen1 : 1 ≤ (chunksOf b rows).length := by
      cases hcl : chunksOf b rows with
      | nil => exact absurd hcl hchne
      | cons x xs => simp
    rw [hct, hcomp]
    cases hlc : (chunksOf b rows).length with
    | zero => omega
    | succ m =>
      rw [List.replicate_succ]
      have hin0 : st.metrics.input_size = rows.length := by
        rw [hin]
      have hne0 : ¬(st.metrics.input_size = 0) := by
        rw [hin0]
        intro h
        rw [List.length_eq_zero] at h
        exact hne h
      simp only [hne0, if_false]
      refine ⟨rfl, rfl, ?_, ?_⟩
      · show List.count Ev.createFile (st.events) = 1
        rw [hev, List.count_append, hcc]
        rfl
      · show List.count Ev.appendFile (st.events) = m + 1 - 1
        rw [hev, List.count_append, hca, hlc]
        simp

/-- C1 (status: confirmed).  For a valid homogeneous input (every record
of the same shape `s`, with collision-free flattened names) that splits
into more than one batch at chunk size `b`, the streaming conversion
succeeds: the first batch creates the output file and every subsequent
batch appends one more row group, all with the one requested codec
(`createFile` is seen exactly once and `appendFile` once per remaining
batch); and the final written file at chunk size `b` has the same total
row count (the input's record count) and the same post-flattening column
set (`finalNames s`, identical in every row group) as the run at chunk
size `2*b`. -/
theorem claim1_batch_size_invariance (rows : List Record)
    (s : List (String × SKind)) (codec : String) (b : Nat)
    (hhom : ∀ r ∈ rows, shapeL r = s) (hok : ShapeOK s)
    (hcodec : validCodec codec = true) (hb : 0 < b) (hlt : b < rows.length) :
    (convert_jsonl_to_parquet (some rows) codec b).ok = true
    ∧ (∃ ws, (convert_jsonl_to_parquet (some rows) codec b).file = some ws
        ∧ 2 ≤ ws.length
        ∧ (∀ p ∈ ws, p.1 = codec ∧ p.2.cols.map Prod.fst = finalNames s)
        ∧ (ws.map (fun p => p.2.nrows)).sum = rows.length
        ∧ (convert_jsonl_to_parquet (some rows) codec b).events.count
            Ev.createFile = 1
        ∧ (convert_jsonl_to_parquet (some rows) codec b).events.count
            Ev.appendFile = ws.length - 1)
    ∧ (convert_jsonl_to_parquet (some rows) codec (2 * b)).ok = true
    ∧ (∃ ws2, (convert_jsonl_to_parquet (some rows) codec (2 * b)).file = some ws2
        ∧ (∀ p ∈ ws2, p.1 = codec ∧ p.2.cols.map Prod.fst = finalNames s)
        ∧ (ws2.map (fun p => p.2.nrows)).sum = rows.length) := by
  have hne : rows ≠ [] := by
    intro h
    rw [h] at hlt
    simp at hlt
  have hb1 : b ≠ 0 := by omega
  have hb2 : 2 * b ≠ 0 := by omega
  have hrun1 := convert_homog_run rows codec b hne hhom hok hcodec hb1
  have hrun2 := convert_homog_run rows codec (2 * b) hne hhom hok hcodec hb2
  have hwsfacts : ∀ (bb : Nat), bb ≠ 0 →
      (∀ p ∈ (chunkDFs s (chunksOf bb rows) 0).map (fun d => (codec, d)),
        p.1 = codec ∧ p.2.cols.map Prod.fst = finalNames s)
      ∧ (((chunkDFs s (chunksOf bb rows) 0).map (fun d => (codec, d))).map
          (fun p => p.2.nrows)).sum = rows.length := by
    intro bb hbb
    have hallb : ∀ c ∈ chunksOf bb rows, c ≠ [] ∧ ∀ r ∈ c, shapeL r = s := by
      intro c hc
      exact ⟨(chunksOf_mem hbb rows c hc).1,
        fun r hr => hhom r ((chunksOf_mem hbb rows c hc).2 r hr)⟩
    constructor
    · intro p hp
      rw [List.mem_map] at hp
      obtain ⟨df, hdf, rfl⟩ := hp
      exact ⟨rfl, chunkDFs_names hok (chunksOf bb rows) 0 hallb df hdf⟩
    · rw [List.map_map,
        show ((fun p : String × DF => p.2.nrows) ∘ fun d => (codec, d)) = DF.nrows
          from rfl,
        chunkDFs_nrows, chunksOf_rowsum hbb]
  refine ⟨hrun1.1, ?_, hrun2.1, ?_⟩
  · refine ⟨(chunkDFs s (chunksOf b rows) 0).map (fun d => (codec, d)),
      hrun1.2.1, ?_, (hwsfacts b hb1).1, (hwsfacts b hb1).2, hrun1.2.2.1, ?_⟩
    · rw [List.length_map, chunkDFs_length]
      exact chunksOf_two hb1 hlt
    · rw [hrun1.2.2.2, List.length_map, chunkDFs_length]
  · exact ⟨(chunkDFs s (chunksOf (2 * b) rows) 0).map (fun d => (codec, d)),
      hrun2.2.1, (hwsfacts (2 * b) hb2).1, (hwsfacts (2 * b) hb2).2⟩

/-- Witness for `claim1_batch_size_invariance`: three homogeneous
records with an object column, converted at chunk sizes 1 and 2. -/
theorem claim1_witness :
    (convert_jsonl_to_parquet (some
      [[("id", JVal.jint 1), ("m", JVal.jobj [("a", JVal.jint 1)])],
       [("id", JVal.jint 2), ("m", JVal.jobj [("a", JVal.jint 2)])],
       [("id", JVal.jint 3), ("m", JVal.jobj [("a", JVal.jint 3)])]])
      "snappy" 1).ok = true
    ∧ (convert_jsonl_to_parquet (some
      [[("id", JVal.jint 1), ("m", JVal.jobj [("a", JVal.jint 1)])],
       [("id", JVal.jint 2), ("m", JVal.jobj [("a", JVal.jint 2)])],
       [("id", JVal.jint 3), ("m", JVal.jobj [("a", JVal.jint 3)])]])
      "snappy" (2 * 1)).ok = true :=
  ⟨(claim1_batch_size_invariance
      [[("id", JVal.jint 1), ("m", JVal.jobj [("a", JVal.jint 1)])],
       [("id", JVal.jint 2), ("m", JVal.jobj [("a", JVal.jint 2)])],
       [("id", JVal.jint 3), ("m", JVal.jobj [("a", JVal.jint 3)])]]
      [("id", SKind.sInt), ("m", SKind.sObj [("a", SKind.sInt)])] "snappy" 1
      (by intro r hr
          simp only [List.mem_cons, List.not_mem_nil, or_false] at hr
          rcases hr with rfl | rfl | rfl <;> rfl)
      (by unfold ShapeOK; decide) rfl (by decide) (by decide)).1,
   (claim1_batch_size_invariance
      [[("id", JVal.jint 1), ("m", JVal.jobj [("a", JVal.jint 1)])],
       [("id", JVal.jint 2), ("m", JVal.jobj [("a", JVal.jint 2)])],
       [("id", JVal.jint 3), ("m", JVal.jobj [("a", JVal.jint 3)])]]
      [("id", SKind.sInt), ("m", SKind.sObj [("a", SKind.sInt)])] "snappy" 1
      (by intro r hr
          simp only [List.mem_cons, List.not_mem_nil, or_false] at hr
          rcases hr with rfl | rfl | rfl <;> rfl)
      (by unfold ShapeOK; decide) rfl (by decide) (by decide)).2.2.1⟩
